import Mathlib

/-!
# Blitz: chunked SimHash index, build pipeline and lookup engine

A shallow embedding of `cmd/cli/model.go`, `cmd/cli/index.go` and
`cmd/cli/lookup.go` (the copies in `cmd/web/search.go` are the same code,
except for `indexCommand` and `lookupCommandWeb`, which are embedded too),
followed by theorems about the embedding.

Conventions of the embedding.

* Go `int` and `int64` values are `Int`; `uint64` values are `Nat` (the only
  arithmetic on them is `^` and a population count over the low 64 bits).
  The file offsets of `createIndex` are bounded by the file size, so no
  `int64` addition wraps.
  The platform is a 64-bit one: `make` panics for a slice of more than
  `maxAlloc` bytes, and one `Read` of a file returns at most `maxRW` bytes.
  Running out of memory below that limit, which the specification leaves out
  of scope, is not modelled.
* A byte is a `Nat`; a file is the list of its bytes; the file system is a
  function from paths to optional contents.
* A Go `map[uint64][]int` is an association list of its entries.  A nil map and
  an empty map are both `[]` (they behave alike for reads and for `range`).
  Go does not fix the order in which `range` visits a map: that order is an
  explicit argument of `lookupQuery`.
* A Go call either returns a value with a nil error, returns a non-nil error,
  or panics: `Result`.  A loop that has not finished when the fuel runs out
  yields `none`.
* The order in which the worker goroutines deliver their results to the
  aggregator goroutine is chosen by the scheduler: it is an explicit argument
  `sched` of `createIndex`, a reordering of the list of results.
* `simhash.Simhash(simhash.NewWordFeatureSet(b))` belongs to an external
  library; it is a parameter `simhash`.
* The commands act on a `World`: the content of the files as seen through
  each path, the paths that can be created, the file that each path leads to
  (two paths may lead to one file), the largest offset of a seek, and the
  trace of the system calls and of the writes on the standard output.  A
  command returns its result and the world it leaves.
* The package `encoding/gob` is a parameter `GobCodec`; where a property
  depends on what the package does, `sampleCodec` stands for it.  A Go string
  that holds file content is the list of its bytes; paths and messages are
  `String`s.
* A Go slice is the list of its elements.  Whether the slice `Chunks` of an
  `Index` is nil, which `reflect.DeepEqual` tells from an empty slice, is kept
  apart from the `Index`, in an `IndexValue`.
-/

namespace Blitz

/-! ## Data model (`model.go`) -/

/-- One byte of a file. -/
abbrev Byte := Nat

/-- The struct `ChunkInfo`: `Offset int64`, `Size int`, `Hash uint64`. -/
structure ChunkInfo where
  Offset : Int
  Size : Int
  Hash : Nat
  deriving DecidableEq

/-- A Go `map[uint64][]int`, as the list of its entries. -/
abbrev HashMap := List (Nat × List Int)

/-- The struct `Index`. -/
structure Index where
  FilePath : String
  ChunkSize : Int
  Chunks : List ChunkInfo
  HashToChunks : HashMap
  deriving DecidableEq

/-- Outcome of a Go call: a value with a nil error, a non-nil error, or a
runtime panic. -/
inductive Result (α : Type) where
  | ok (value : α)
  | err (msg : String)
  | panic (msg : String)
  deriving DecidableEq

/-- The map read `m[k]`: the stored slice, or the nil slice when `k` is absent. -/
def mapGet : HashMap → Nat → List Int
  | [], _ => []
  | (k', v) :: rest, k => if k' = k then v else mapGet rest k

/-- The map write `m[k] = v`: replaces the value of an existing key, adds a
new entry otherwise. -/
def mapSet : HashMap → Nat → List Int → HashMap
  | [], k, v => [(k, v)]
  | (k', v') :: rest, k, v =>
    if k' = k then (k, v) :: rest else (k', v') :: mapSet rest k v

/-- The keys of a map. -/
def mapKeys (m : HashMap) : List Nat := m.map Prod.fst

/-- The slice read `chunks[i]` for an `int` index: `none` is the
index-out-of-range panic. -/
def chunkAt (chunks : List ChunkInfo) (i : Int) : Option ChunkInfo :=
  if i < 0 then none else chunks[i.toNat]?

/-! ## `HammingDistance` (`lookup.go`) -/

/-- Number of one bits among the lowest `n` bits of `x`. -/
def onesCount : Nat → Nat → Nat
  | 0, _ => 0
  | n + 1, x => x % 2 + onesCount n (x / 2)

/-- The Go standard library function `bits.OnesCount64` (not part of the
repository): the number of one bits of a `uint64`, counted bit by bit over its
64 positions. -/
def OnesCount64 (x : Nat) : Nat := onesCount 64 x

/-- The function `HammingDistance`: `bits.OnesCount64(a ^ b)`. -/
def HammingDistance (a b : Nat) : Nat := OnesCount64 (a ^^^ b)

/-- The constant `maxHammingDistance` of `lookupQuery`. -/
def maxHammingDistance : Nat := 10

/-! ## `lookupQuery` (`lookup.go`) -/

/-- The inner loop `for _, chunkIdx := range idxs { matchingChunks =
append(matchingChunks, index.Chunks[chunkIdx]) }`. -/
def appendChunks (chunks : List ChunkInfo) :
    List ChunkInfo → List Int → Result (List ChunkInfo)
  | acc, [] => .ok acc
  | acc, i :: rest =>
    match chunkAt chunks i with
    | none => .panic "index out of range"
    | some c => appendChunks chunks (acc ++ [c]) rest

/-- The loop `for hash, chunkIndices := range index.HashToChunks` of step 2,
over the entries in the order in which `range` visits them. -/
def fuzzyScan (chunks : List ChunkInfo) (queryHash : Nat) :
    List ChunkInfo → HashMap → Result (List ChunkInfo)
  | acc, [] => .ok acc
  | acc, (hash, chunkIndices) :: rest =>
    if HammingDistance queryHash hash ≤ maxHammingDistance then
      match appendChunks chunks acc chunkIndices with
      | .ok acc' => fuzzyScan chunks queryHash acc' rest
      | .err e => .err e
      | .panic e => .panic e
    else fuzzyScan chunks queryHash acc rest

/-- The function `lookupQuery`.  `visit` is the order in which `range` visits
the entries of `index.HashToChunks` (a permutation of them). -/
def lookupQuery (index : Index) (queryHash : Nat) (visit : HashMap) :
    Result (List ChunkInfo) :=
  match appendChunks index.Chunks [] (mapGet index.HashToChunks queryHash) with
  | .ok matchingChunks =>
    if matchingChunks.length = 0 then
      fuzzyScan index.Chunks queryHash matchingChunks visit
    else .ok matchingChunks
  | .err e => .err e
  | .panic e => .panic e

/-! ## `createIndex` (`index.go`) -/

/-- The allocation limit of the Go runtime on 64-bit platforms
(`runtime.maxAlloc`, 2^48 bytes): `make` panics for a slice of more bytes. -/
def maxAlloc : Nat := 281474976710656

/-- The most bytes that one `Read` of an `os.File` returns (`maxRW` of
`internal/poll`, 2^30 bytes): a longer buffer is cut to that length. -/
def maxRW : Nat := 1073741824

/-- The size in bytes of a `ChunkInfo` (`int64`, `int`, `uint64`). -/
def chunkInfoSize : Nat := 24

/-- The text of the error of a failed `os.Open`, `os.Create` or `os.OpenFile`. -/
def osError (path : String) : String :=
  "open " ++ path ++ ": no such file or directory"

/-- A job sent to the workers: `struct { data []byte; offset int64 }`. -/
structure Job where
  data : List Byte
  offset : Int
  deriving DecidableEq

/-- One call `file.Read(buffer)` on a regular file whose unread bytes are
`rest`, with a buffer of `bufLen` bytes: `none` is `io.EOF`, otherwise the
bytes read and the bytes left.  The read fills the buffer, cut to `maxRW`
bytes when it is longer, as far as there are bytes left.  A read into an empty
buffer returns zero bytes and no error.  Reads of the in-memory content never
fail, so the branch of `createIndex` for a read error other than `io.EOF` is
not taken. -/
def fileRead (bufLen : Nat) (rest : List Byte) : Option (List Byte × List Byte) :=
  if bufLen = 0 then some ([], rest)
  else if rest = [] then none
  else some (rest.take (min bufLen maxRW), rest.drop (min bufLen maxRW))

/-- The read/dispatch loop of `createIndex`: the jobs sent on the `jobs`
channel, in the order they are sent.  `none`: the loop is still running when
the fuel is used up. -/
def readLoop : Nat → Nat → List Byte → Int → Option (List Job)
  | 0, _, _, _ => none
  | fuel + 1, chunkSize, rest, offset =>
    match fileRead chunkSize rest with
    | none => some []
    | some (data, rest') =>
      (readLoop fuel chunkSize rest' (offset + (data.length : Int))).map
        (fun jobs => { data := data, offset := offset } :: jobs)

/-- The body of a worker goroutine for one job. -/
def worker (simhash : List Byte → Nat) (job : Job) : ChunkInfo :=
  { Offset := job.offset, Size := (job.data.length : Int), Hash := simhash job.data }

/-- One iteration of the aggregator goroutine `for chunkInfo := range results`. -/
def aggregate (index : Index) (chunkInfo : ChunkInfo) : Index :=
  let chunkIdx : Int := (index.Chunks.length : Int)
  { index with
    Chunks := index.Chunks ++ [chunkInfo]
    HashToChunks :=
      mapSet index.HashToChunks chunkInfo.Hash
        (mapGet index.HashToChunks chunkInfo.Hash ++ [chunkIdx]) }

/-- The `Index` that `createIndex` allocates before the pipeline starts. -/
def newIndex (filePath : String) (chunkSize : Int) : Index :=
  { FilePath := filePath, ChunkSize := chunkSize, Chunks := [], HashToChunks := [] }

/-- The aggregator goroutine run over the results in their arrival order. -/
def aggregator (index : Index) (results : List ChunkInfo) : Index :=
  results.foldl aggregate index

/-- The part of `createIndex` that reads the file and dispatches the chunks
(lines 201 to 225 of `index.go`): the allocation `make([]byte, chunkSize)` of
the buffer, which panics for a negative size and for a size above the
allocation limit, then the read loop. -/
def dispatchJobs (fuel : Nat) (chunkSize : Int) (content : List Byte) :
    Option (Result (List Job)) :=
  if chunkSize < 0 ∨ (maxAlloc : Int) < chunkSize then
    some (.panic "makeslice: len out of range")
  else (readLoop fuel chunkSize.toNat content 0).map Result.ok

/-- The function `createIndex`.  `fs` is the file system, `sched` the order in
which the scheduler lets the workers' results reach the aggregator, `fuel`
bounds the number of iterations of the read loop. -/
def createIndex (simhash : List Byte → Nat) (sched : List ChunkInfo → List ChunkInfo)
    (fuel : Nat) (fs : String → Option (List Byte)) (filePath : String)
    (chunkSize : Int) : Option (Result Index) :=
  match fs filePath with
  | none => some (.err (osError filePath ++ ". Check the file path and try again"))
  | some content =>
    let fileSize : Int := (content.length : Int)
    if chunkSize = 0 then some (.panic "integer divide by zero")
    else
      let estimatedChunks : Int :=
        if fileSize.tmod chunkSize ≠ 0 then fileSize.tdiv chunkSize + 1
        else fileSize.tdiv chunkSize
      if estimatedChunks < 0 ∨ (maxAlloc : Int) < (chunkInfoSize : Int) * estimatedChunks then
        some (.panic "makeslice: cap out of range")
      else
        match dispatchJobs fuel chunkSize content with
        | none => none
        | some (.err e) => some (.err e)
        | some (.panic e) => some (.panic e)
        | some (.ok jobs) =>
          some (.ok (aggregator (newIndex filePath chunkSize)
            (sched (jobs.map (worker simhash)))))

/-! ## Definitions used to state the properties -/

/-- The jobs the read loop is expected to send for the unread bytes `rest` when
the next offset is `off`: job `i` holds the `S` bytes (fewer at the end) that
start at byte `i * S`. -/
def expectedJobs (S : Nat) (rest : List Byte) (off : Int) : List Job :=
  (List.range ((rest.length + S - 1) / S)).map
    (fun i => { data := (rest.drop (i * S)).take S, offset := off + ((i * S : Nat) : Int) })

/-- The ranges `[Offset, Offset+Size)` of the records, in list order, are
non-empty and adjacent: the first starts at `lo`, each next one starts where
the previous one ends, and the last ends at `hi`. -/
def Tiles : Int → Int → List ChunkInfo → Prop
  | lo, hi, [] => lo = hi
  | lo, hi, c :: cs => c.Offset = lo ∧ 0 < c.Size ∧ Tiles (lo + c.Size) hi cs

instance Tiles.decide : ∀ (lo hi : Int) (cs : List ChunkInfo), Decidable (Tiles lo hi cs)
  | lo, hi, [] => inferInstanceAs (Decidable (lo = hi))
  | lo, hi, c :: cs =>
    have := Tiles.decide (lo + c.Size) hi cs
    inferInstanceAs (Decidable (c.Offset = lo ∧ 0 < c.Size ∧ Tiles (lo + c.Size) hi cs))

/-- Every index listed in a bucket of `m` is a valid position into `chunks`. -/
def ValidBuckets (chunks : List ChunkInfo) (m : HashMap) : Prop :=
  ∀ e ∈ m, ∀ j ∈ e.2, 0 ≤ j ∧ j < (chunks.length : Int)

instance (chunks : List ChunkInfo) (m : HashMap) : Decidable (ValidBuckets chunks m) := by
  unfold ValidBuckets; infer_instance

/-- The index invariant: every index listed in a bucket is a valid position
into `Chunks`, and every position `i` is listed in the bucket of
`Chunks[i].Hash`. -/
def IndexInvariant (index : Index) : Prop :=
  ValidBuckets index.Chunks index.HashToChunks ∧
  ∀ (i : Nat) (h : i < index.Chunks.length),
    (i : Int) ∈ mapGet index.HashToChunks (index.Chunks.get ⟨i, h⟩).Hash

instance (index : Index) : Decidable (IndexInvariant index) := by
  unfold IndexInvariant; infer_instance

/-- The keys of a Go map are pairwise distinct. -/
def DistinctKeys (m : HashMap) : Prop := (mapKeys m).Nodup

instance (m : HashMap) : Decidable (DistinctKeys m) := by
  unfold DistinctKeys; infer_instance

/-- A 20-byte file: ten bytes `a` followed by ten bytes `b`. -/
def twoChunkFile : List Byte := List.replicate 10 97 ++ List.replicate 10 98

/-- A file system that holds `twoChunkFile` under every path. -/
def twoChunkFs : String → Option (List Byte) := fun _ => some twoChunkFile

/-! ## The file system, the standard output and the commands -/

/-- A system call on a file, or a write on the standard output. -/
inductive Event where
  | openRead (path : String)
  | create (path : String)
  | stat (path : String)
  | remove (path : String)
  | openAppend (path : String)
  | stdout (data : List Byte)
  deriving DecidableEq

/-- The elements of a path, between its separators. -/
def splitPath : List Char → List (List Char)
  | [] => [[]]
  | c :: cs =>
    if c = '/' then [] :: splitPath cs
    else
      match splitPath cs with
      | [] => [[c]]
      | x :: xs => (c :: x) :: xs

/-- A path without its `.` elements and its repeated separators; a leading and
a trailing separator are kept.  Whatever the state of the file system, two
paths with the same cleaned form that lead to a file lead to the same one:
`./hashlogs.txt` and `hashlogs.txt` are one file. -/
def cleanPath (path : String) : String :=
  let elems := (splitPath path.data).filter (fun x => x ≠ [] ∧ x ≠ ['.'])
  let body := List.intercalate ['/'] elems
  let front := if path.data.head? = some '/' then ['/'] else []
  let back := if path.data.getLast? = some '/' ∧ elems ≠ [] then ['/'] else []
  if path.data.head? ≠ some '/' ∧ elems = [] then "." else String.mk (front ++ body ++ back)

/-- The part of the environment the commands act on: the content of the file
that each path leads to (`none`: the file does not exist), whether a path can
be created or opened for writing, the events so far, oldest first, the file
that a cleaned path leads to from the working directory and through the
symbolic links, given as one chosen path to it (hard links are not modelled),
and the largest offset that the file system accepts in a seek. -/
structure World where
  fs : String → Option (List Byte)
  creatable : String → Bool
  trace : List Event
  resolve : String → String
  maxOffset : Int

/-- The file that a path leads to: two paths lead to the same file when they
have the same cleaned form or the world resolves their cleaned forms alike. -/
def World.fileOf (w : World) (path : String) : String :=
  w.resolve (cleanPath path)

/-- The world after one more event. -/
def World.log (w : World) (e : Event) : World :=
  { w with trace := w.trace ++ [e] }

/-- The world after the file that `path` leads to got the content `data`:
every path to that file shows it. -/
def World.write (w : World) (path : String) (data : List Byte) : World :=
  { w with fs := fun p => if w.fileOf p = w.fileOf path then some data else w.fs p }

/-- The world after the file that `path` leads to was removed. -/
def World.delete (w : World) (path : String) : World :=
  { w with fs := fun p => if w.fileOf p = w.fileOf path then none else w.fs p }

/-- The bytes of a Go string literal or formatted text (UTF-8). -/
def stringBytes (s : String) : List Byte :=
  (s.data.flatMap String.utf8EncodeChar).map UInt8.toNat

/-- The package `encoding/gob` (not part of the repository), for the type
`Index`: what `Encode` writes and what `Decode` returns, an `Index` or the text
of an error. -/
structure GobCodec where
  encode : Index → List Byte
  decode : List Byte → Except String Index

/-- The function `validateChunkSize`: `some` is the error, `none` is nil. -/
def validateChunkSize (size : Int) : Option String :=
  if size ≤ 0 then
    some ("invalid chunk size: " ++ toString size ++ ". Provide a valid chunk size (e.g.1024)")
  else none

/-- The text `fmt.Sprintf("%x", hash)`: lowercase hexadecimal. -/
def hexString (n : Nat) : String := String.mk (Nat.toDigits 16 n)

/-- The selection of `generateHashLogs`: the first nine chunks when there are
more than ten, all of them when there are fewer than ten, and nothing when
there are exactly ten. -/
def firstTenHashes (chunks : List ChunkInfo) : List ChunkInfo :=
  if chunks.length > 10 then chunks.take 9
  else if chunks.length < 10 then chunks
  else []

/-- The line that `generateHashLogs` writes for one chunk. -/
def hashLogLine (line : ChunkInfo) : String :=
  hexString line.Hash ++ "=>" ++ toString line.Offset ++ "\n"

/-- The function `generateHashLogs`.  Write errors are not modelled. -/
def generateHashLogs (w : World) (index : Index) : World :=
  let w1 := w.log (.stat "hashlogs.txt")
  let w2 := if (w1.fs "hashlogs.txt").isSome then (w1.log (.remove "hashlogs.txt")).delete "hashlogs.txt"
    else w1
  let w3 := w2.log (.openAppend "hashlogs.txt")
  if w3.creatable "hashlogs.txt" then
    w3.write "hashlogs.txt" (stringBytes (String.join ((firstTenHashes index.Chunks).map hashLogLine)))
  else
    w3.log (.stdout (stringBytes ("Error creating file: " ++ osError "hashlogs.txt" ++ "\n")))

/-- The function `saveIndex`. -/
def saveIndex (codec : GobCodec) (w : World) (index : Index) (outputPath : String) :
    Result Unit × World :=
  let w1 := w.log (.create outputPath)
  if w1.creatable outputPath then
    (.ok (), generateHashLogs (w1.write outputPath (codec.encode index)) index)
  else (.err ("error creating index file: " ++ osError outputPath), w1)

/-- The function `loadIndex`. -/
def loadIndex (codec : GobCodec) (w : World) (indexPath : String) : Result Index × World :=
  let w1 := w.log (.openRead indexPath)
  match w1.fs indexPath with
  | none => (.err ("error opening index file: " ++ osError indexPath), w1)
  | some bytes =>
    match codec.decode bytes with
    | .error e => (.err ("error decoding index: " ++ e), w1)
    | .ok index => (.ok index, w1)

/-- The largest value of an `int64`, 2^63 - 1. -/
def maxInt64 : Int := 9223372036854775807

/-- The function `getChunkContent`; the returned Go string is the list of its
bytes.  The seek fails for a negative offset and for one beyond what the file
system accepts; `make([]byte, size)` panics for a negative size and for one
above the allocation limit; the one read, of up to `maxRW` bytes, is refused
when it would end beyond the largest `int64`, and a read into an empty buffer
returns at once. -/
def getChunkContent (w : World) (filePath : String) (offset size : Int) :
    Result (List Byte) × World :=
  let w1 := w.log (.openRead filePath)
  match w1.fs filePath with
  | none => (.err ("error opening file: " ++ osError filePath), w1)
  | some content =>
    if offset < 0 ∨ w1.maxOffset < offset then
      (.err ("error seeking in file: seek " ++ filePath ++ ": invalid argument"), w1)
    else if size < 0 ∨ (maxAlloc : Int) < size then (.panic "makeslice: len out of range", w1)
    else if size ≠ 0 ∧ maxInt64 < offset + min size (maxRW : Int) then
      (.err ("error reading chunk: read " ++ filePath ++ ": invalid argument"), w1)
    else
      match fileRead size.toNat (content.drop offset.toNat) with
      | none => (.ok [], w1)
      | some (data, _) => (.ok data, w1)

/-- The last element of a path: `filepath.Base` of the standard library (not
part of the repository), for `/` as the separator. -/
def filepathBase (path : String) : String :=
  if path = "" then "."
  else
    let stripped := (path.data.reverse.dropWhile (fun c => c = '/')).reverse
    let last := (stripped.reverse.takeWhile (fun c => c ≠ '/')).reverse
    if last = [] then "/" else String.mk last

/-- The call of `createIndex` in a world: the file is opened first. -/
def createIndexIn (simhash : List Byte → Nat) (sched : List ChunkInfo → List ChunkInfo)
    (fuel : Nat) (w : World) (filePath : String) (chunkSize : Int) :
    Option (Result Index × World) :=
  (createIndex simhash sched fuel w.fs filePath chunkSize).map
    (fun r => (r, w.log (.openRead filePath)))

/-- The function `indexCommand` of `cmd/cli`. -/
def indexCommand (simhash : List Byte → Nat) (sched : List ChunkInfo → List ChunkInfo)
    (fuel : Nat) (codec : GobCodec) (w : World) (inputFile : String) (chunkSize : Int)
    (outputFile : String) : Option (Result Unit × World) :=
  if inputFile = "" then some (.err "error: input file is required", w)
  else
    let outputFile := if outputFile = "" then filepathBase inputFile ++ ".idx" else outputFile
    match validateChunkSize chunkSize with
    | some e => some (.err e, w)
    | none =>
      let w1 := w.log (.stdout (stringBytes
        ("Indexing " ++ inputFile ++ " (chunk size: " ++ toString chunkSize ++ " bytes)...\n")))
      match createIndexIn simhash sched fuel w1 inputFile chunkSize with
      | none => none
      | some (.err e, w2) => some (.err e, w2)
      | some (.panic e, w2) => some (.panic e, w2)
      | some (.ok index, w2) =>
        match saveIndex codec w2 index outputFile with
        | (.err e, w3) => some (.err e, w3)
        | (.panic e, w3) => some (.panic e, w3)
        | (.ok _, w3) =>
          some (.ok (), w3.log (.stdout (stringBytes
            ("Indexed " ++ toString index.Chunks.length ++ " chunks, saved to " ++ outputFile
              ++ "\n"))))

/-- The function `indexCommand` of `cmd/web`: no validation of the chunk size
and no output. -/
def Web.indexCommand (simhash : List Byte → Nat) (sched : List ChunkInfo → List ChunkInfo)
    (fuel : Nat) (codec : GobCodec) (w : World) (inputFile : String) (chunkSize : Int)
    (outputFile : String) : Option (Result Unit × World) :=
  if inputFile = "" then some (.err "error: input file is required", w)
  else
    let outputFile := if outputFile = "" then filepathBase inputFile ++ ".idx" else outputFile
    match createIndexIn simhash sched fuel w inputFile chunkSize with
    | none => none
    | some (.err e, w2) => some (.err e, w2)
    | some (.panic e, w2) => some (.panic e, w2)
    | some (.ok index, w2) =>
      match saveIndex codec w2 index outputFile with
      | (.err e, w3) => some (.err e, w3)
      | (.panic e, w3) => some (.panic e, w3)
      | (.ok _, w3) => some (.ok (), w3)

/-- The loop of `lookupCommand` over the matching chunks; `i` is the loop index
and `total` is `len(matchingChunks)`. -/
def printChunks (filePath : String) (total : Nat) :
    World → Nat → List ChunkInfo → Result Unit × World
  | w, _, [] => (.ok (), w)
  | w, i, chunk :: rest =>
    match getChunkContent w filePath chunk.Offset chunk.Size with
    | (.err e, w1) => (.err e, w1)
    | (.panic e, w1) => (.panic e, w1)
    | (.ok content, w1) =>
      let w2 := w1.log (.stdout (stringBytes
        ("Query found in chunk at byte offset: " ++ toString chunk.Offset ++ "\n")))
      let w3 := w2.log (.stdout (stringBytes "Chunk content:\n"))
      let w4 := w3.log (.stdout (content ++ stringBytes "\n"))
      let w5 := if i + 1 < total then w4.log (.stdout (stringBytes "\n---\n")) else w4
      printChunks filePath total w5 (i + 1) rest

/-- The function `lookupCommand`.  `order` is the order in which `range`
visits a map. -/
def lookupCommand (codec : GobCodec) (order : HashMap → HashMap) (w : World)
    (indexFile : String) (queryHash : Nat) : Result Unit × World :=
  if indexFile = "" then (.err "error: index file is required", w)
  else if queryHash = 0 then (.err "error: simhash value is required", w)
  else
    match loadIndex codec w indexFile with
    | (.err e, w1) => (.err e, w1)
    | (.panic e, w1) => (.panic e, w1)
    | (.ok index, w1) =>
      match lookupQuery index queryHash (order index.HashToChunks) with
      | .err e => (.err e, w1)
      | .panic e => (.panic e, w1)
      | .ok matchingChunks =>
        if matchingChunks.length = 0 then
          (.err "SimHash not found. Ensure the file was indexed before looking up",
            w1.log (.stdout (stringBytes "No matches found for query.\n")))
        else
          match printChunks index.FilePath matchingChunks.length w1 0 matchingChunks with
          | (.err e, w2) => (.err e, w2)
          | (.panic e, w2) => (.panic e, w2)
          | (.ok _, w2) =>
            (.ok (), (w2.log (.stdout (stringBytes "\n---\n"))).log (.stdout (stringBytes
              ("\nQuery found " ++ toString matchingChunks.length ++ " indexed chunk(s).\n"))))

/-- The loop of `lookupCommandWeb` over the matching chunks; `content` is the
slice of strings built so far. -/
def collectChunks (filePath : String) (total : Nat) :
    World → Nat → List ChunkInfo → List (List Byte) → Result (List (List Byte)) × World
  | w, _, [], content => (.ok content, w)
  | w, i, chunk :: rest, content =>
    match getChunkContent w filePath chunk.Offset chunk.Size with
    | (.err e, w1) => (.err e, w1)
    | (.panic e, w1) => (.panic e, w1)
    | (.ok conten, w1) =>
      let conten1 := conten ++ stringBytes
        ("Query found in chunk at byte offset: " ++ toString chunk.Offset ++ "\n")
      let conten2 := conten1 ++ stringBytes "Chunk content:"
      let conten3 := if i + 1 < total then conten2 ++ stringBytes "\n---\n" else conten2
      collectChunks filePath total w1 (i + 1) rest (content ++ [conten3])

/-- The function `lookupCommandWeb`; the returned Go string is the list of its
bytes. -/
def lookupCommandWeb (codec : GobCodec) (order : HashMap → HashMap) (w : World)
    (indexFile : String) (queryHash : Nat) : Result (List Byte) × World :=
  if indexFile = "" then (.err "error: index file is required", w)
  else if queryHash = 0 then (.err "error: simhash value is required", w)
  else
    match loadIndex codec w indexFile with
    | (.err e, w1) => (.err e, w1)
    | (.panic e, w1) => (.panic e, w1)
    | (.ok index, w1) =>
      match lookupQuery index queryHash (order index.HashToChunks) with
      | .err e => (.err e, w1)
      | .panic e => (.panic e, w1)
      | .ok matchingChunks =>
        if matchingChunks.length = 0 then
          (.err "SimHash not found. Ensure the file was indexed before looking up",
            w1.log (.stdout (stringBytes "No matches found for query.\n")))
        else
          match collectChunks index.FilePath matchingChunks.length w1 0 matchingChunks [] with
          | (.err e, w2) => (.err e, w2)
          | (.panic e, w2) => (.panic e, w2)
          | (.ok content, w2) =>
            (.ok ((content ++ [stringBytes
              ("\n--\nQuery found " ++ toString matchingChunks.length ++ " indexed chunk(s).\n")]
              ).intersperse (stringBytes " ")).flatten, w2)

/-! ## More definitions used to state the properties -/

/-- The text of the error of `lookupCommand` when nothing matches. -/
def notFoundError : String := "SimHash not found. Ensure the file was indexed before looking up"

/-- The index that `createIndex` builds from `content`. -/
def builtIndex (simhash : List Byte → Nat) (sched : List ChunkInfo → List ChunkInfo)
    (filePath : String) (content : List Byte) (S : Nat) : Index :=
  aggregator (newIndex filePath (S : Int)) (sched ((expectedJobs S content 0).map (worker simhash)))

/-- The positions `i` of the chunks whose hash satisfies `p`, in ascending order. -/
def positionsWhere (chunks : List ChunkInfo) (p : Nat → Bool) : List Int :=
  ((List.range chunks.length).filter
    (fun i => match chunks[i]? with
      | some c => p c.Hash
      | none => false)).map Int.ofNat

/-- The buckets are exact: the keys are pairwise distinct and the bucket of a
key lists the positions of the chunks with that hash, each once, in ascending
order. -/
def ExactBuckets (index : Index) : Prop :=
  DistinctKeys index.HashToChunks ∧
  ∀ k : Nat, mapGet index.HashToChunks k = positionsWhere index.Chunks (fun h => decide (h = k))

/-! ## Sample inputs -/

/-- The fields of an `Index` as numbers and lists of numbers. -/
def indexFields (index : Index) :
    List Nat × Int × List (Int × Int × Nat) × List (Nat × List Int) :=
  (index.FilePath.data.map Char.toNat, index.ChunkSize,
    index.Chunks.map (fun c => (c.Offset, c.Size, c.Hash)), index.HashToChunks)

/-- The `Index` with the given fields. -/
def indexOfFields (f : List Nat × Int × List (Int × Int × Nat) × List (Nat × List Int)) :
    Index :=
  { FilePath := String.mk (f.1.map Char.ofNat), ChunkSize := f.2.1,
    Chunks := f.2.2.1.map (fun c => { Offset := c.1, Size := c.2.1, Hash := c.2.2 }),
    HashToChunks := f.2.2.2 }

/-- The codec that stands for `encoding/gob`, a package outside the
repository: the wire format is not modelled, an `Index` is written as one
number that codes its fields, decoding gives back the fields that were
encoded, and the empty stream does not decode (`EOF`). -/
def sampleCodec : GobCodec where
  encode := fun index => [Encodable.encode (indexFields index)]
  decode := fun bytes =>
    match bytes with
    | [n] =>
      match (Encodable.decode n :
          Option (List Nat × Int × List (Int × Int × Nat) × List (Nat × List Int))) with
      | some f => .ok (indexOfFields f)
      | none => .error "unexpected data"
    | [] => .error "EOF"
    | _ => .error "unexpected data"

/-- A world without files in which every path can be created. -/
def emptyWorld : World :=
  { fs := fun _ => none
    creatable := fun _ => true
    trace := []
    resolve := fun p => p
    maxOffset := 17592186040320 }

/-- The index of the tests of `lookupCommand`. -/
def validIndex : Index :=
  { FilePath := "", ChunkSize := 0, Chunks := [⟨10, 100, 0⟩, ⟨110, 200, 0⟩],
    HashToChunks := [(123, [0, 1])] }

/-- A world whose only file, `testdata/valid_index.gob`, holds the encoding of
`validIndex`. -/
def validWorld : World :=
  { fs := fun p =>
      if p = "testdata/valid_index.gob" then some (sampleCodec.encode validIndex) else none
    creatable := fun _ => true
    trace := []
    resolve := fun p => p
    maxOffset := 17592186040320 }

/-- A world whose only file is the upload of the web front end, two bytes long. -/
def uploadWorld : World :=
  { fs := fun p => if p = "./cmd/web/uploads/uploaded_text.txt" then some [104, 105] else none
    creatable := fun _ => true
    trace := []
    resolve := fun p => p
    maxOffset := 17592186040320 }

/-- An index that breaks the invariant: the bucket of 5 lists position 3, and
there is one chunk. -/
def badIndex : Index :=
  { FilePath := "text.txt", ChunkSize := 10, Chunks := [⟨0, 10, 5⟩],
    HashToChunks := [(5, [0, 3])] }

/-- A world whose only file, `bad.idx`, holds the encoding of `badIndex`. -/
def corruptWorld : World :=
  { fs := fun p => if p = "bad.idx" then some (sampleCodec.encode badIndex) else none
    creatable := fun _ => true
    trace := []
    resolve := fun p => p
    maxOffset := 17592186040320 }

/-- The chunks at offsets 0, 10, 20, ... of a file of `n` chunks of ten bytes,
chunk `i` with hash `i`. -/
def sampleChunks (n : Nat) : List ChunkInfo :=
  (List.range n).map (fun i => { Offset := ((i * 10 : Nat) : Int), Size := 10, Hash := i })

/-- A world whose only file, `text.txt`, holds 35 bytes. -/
def textWorld : World :=
  { fs := fun p => if p = "text.txt" then some (List.replicate 35 97) else none
    creatable := fun _ => true
    trace := []
    resolve := fun p => p
    maxOffset := 17592186040320 }

/-- A world whose only file, `empty.gob`, has no byte. -/
def emptyFileWorld : World :=
  { fs := fun p => if p = "empty.gob" then some [] else none
    creatable := fun _ => true
    trace := []
    resolve := fun p => p
    maxOffset := 17592186040320 }

/-- The bit-by-bit count equals the number of set bits among the lowest `n` positions. -/
theorem onesCount_eq_filter (n : Nat) : ∀ x : Nat,
    onesCount n x = ((List.range n).filter (fun i => x.testBit i)).length := by
  induction n with
  | zero => intro x; rfl
  | succ n ih =>
    intro x
    rw [onesCount, ih (x / 2), List.range_succ_eq_map, List.filter_cons, List.filter_map]
    have h0 : x.testBit 0 = decide (x % 2 = 1) := Nat.testBit_zero x
    have hs : ((fun i => x.testBit i) ∘ Nat.succ) = (fun i => (x / 2).testBit i) := by
      funext i
      simp [Function.comp, Nat.testBit_succ]
    rw [hs]
    rcases Nat.mod_two_eq_zero_or_one x with h | h
    · simp [h0, h]
    · simp [h0, h]; omega

/-- At most `n` of the lowest `n` bits are set. -/
theorem onesCount_le (n : Nat) (x : Nat) : onesCount n x ≤ n := by
  rw [onesCount_eq_filter]
  calc ((List.range n).filter (fun i => x.testBit i)).length
      ≤ (List.range n).length := List.length_filter_le _ _
    _ = n := List.length_range n

/-- Counting the positions below `n` that satisfy `p`, as a list length and as a finset cardinality. -/
theorem list_filter_length_eq_card (n : Nat) (p : Nat → Prop) [DecidablePred p] :
    ((List.range n).filter (fun i => decide (p i))).length
      = (Finset.filter p (Finset.range n)).card := by
  have hnd : ((List.range n).filter (fun i => decide (p i))).Nodup :=
    (List.nodup_range n).filter _
  rw [← List.toFinset_card_of_nodup hnd, List.toFinset_filter]
  congr 1
  ext i
  simp

/-- Reading one chunk lowers the rounded-up quotient by one. -/
theorem ceilDiv_step (L S : Nat) (hS : 0 < S) (hL : 0 < L) :
    (L + S - 1) / S = (L - S + S - 1) / S + 1 := by
  by_cases h : S ≤ L
  · have : L + S - 1 = (L - S + S - 1) + S := by omega
    rw [this, Nat.add_div_right _ hS]
  · have h1 : L - S + S - 1 = S - 1 := by omega
    have h2 : L + S - 1 = (L - 1) + S := by omega
    rw [h1, h2, Nat.add_div_right _ hS, Nat.div_eq_of_lt (by omega), Nat.div_eq_of_lt (by omega)]

/-- A read of up to `S` bytes is not cut when `S` is within the limit of one
read or when no more bytes than that limit are left. -/
theorem take_drop_min_maxRW (S : Nat) (rest : List Byte)
    (h : S ≤ maxRW ∨ rest.length ≤ maxRW) :
    rest.take (min S maxRW) = rest.take S ∧ rest.drop (min S maxRW) = rest.drop S := by
  by_cases hS : S ≤ maxRW
  · rw [Nat.min_eq_left hS]
    exact ⟨rfl, rfl⟩
  · have hL : rest.length ≤ maxRW := h.resolve_left hS
    have hm : min S maxRW = maxRW := Nat.min_eq_right (by omega)
    rw [hm, List.take_of_length_le hL, List.take_of_length_le (by omega),
      List.drop_of_length_le hL, List.drop_of_length_le (by omega)]
    exact ⟨rfl, rfl⟩

/-- One read that is not cut. -/
theorem fileRead_full (S : Nat) (rest : List Byte) (hS : 0 < S) (hr : rest ≠ [])
    (h : S ≤ maxRW ∨ rest.length ≤ maxRW) :
    fileRead S rest = some (rest.take S, rest.drop S) := by
  have hS0 : S ≠ 0 := by omega
  obtain ⟨h1, h2⟩ := take_drop_min_maxRW S rest h
  simp only [fileRead, hS0, hr, if_false, h1, h2]

/-- With enough fuel the read loop sends exactly the expected jobs, when no
read is cut by the limit of one read. -/
theorem readLoop_eq (S : Nat) (hS : 0 < S) : ∀ (fuel : Nat) (rest : List Byte) (off : Int),
    (S ≤ maxRW ∨ rest.length ≤ maxRW) →
    (rest.length + S - 1) / S < fuel →
    readLoop fuel S rest off = some (expectedJobs S rest off) := by
  intro fuel
  induction fuel with
  | zero => intro rest off _ h; exact absurd h (Nat.not_lt_zero _)
  | succ fuel ih =>
    intro rest off hread h
    have hS0 : S ≠ 0 := by omega
    by_cases hr : rest = []
    · subst hr
      have h0 : (S - 1) / S = 0 := Nat.div_eq_of_lt (by omega)
      simp [readLoop, fileRead, hS0, expectedJobs, h0]
    · have hlen : 0 < rest.length := List.length_pos.mpr hr
      have hstep := ceilDiv_step rest.length S hS hlen
      have hdrop : (rest.drop S).length = rest.length - S := List.length_drop S rest
      have hfuel : ((rest.drop S).length + S - 1) / S < fuel := by
        rw [hdrop]; omega
      have hread2 : S ≤ maxRW ∨ (rest.drop S).length ≤ maxRW := by
        rw [hdrop]; omega
      simp only [readLoop, fileRead_full S rest hS hr hread]
      rw [ih (rest.drop S) _ hread2 hfuel]
      simp only [Option.map_some', expectedJobs, hdrop]
      rw [hstep, List.range_succ_eq_map, List.map_cons, List.map_map]
      congr 1
      congr 1
      · simp
      · by_cases hle : S ≤ rest.length
        · apply List.map_congr_left
          intro i _
          have e1 : ((List.take S rest).length : Int) = (S : Int) := by
            rw [List.length_take, Nat.min_eq_left hle]
          simp only [Function.comp, List.drop_drop, e1, Nat.succ_eq_add_one, Nat.add_mul,
            Nat.one_mul]
          congr 1
          · rw [Nat.add_comm]
          · push_cast; ring
        · have h1 : rest.length - S + S - 1 = S - 1 := by omega
          rw [h1, Nat.div_eq_of_lt (by omega)]
          rfl

/-- The aggregator appends the results to `Chunks` in their arrival order. -/
theorem aggregator_chunks (rs : List ChunkInfo) : ∀ index : Index,
    (aggregator index rs).Chunks = index.Chunks ++ rs := by
  induction rs with
  | nil => intro index; simp [aggregator]
  | cons r rs ih =>
    intro index
    have := ih (aggregate index r)
    simp only [aggregator, List.foldl_cons] at this ⊢
    rw [this]
    simp [aggregate]

/-- The rounded-up quotient, computed as `createIndex` computes the capacity
of `Chunks`. -/
theorem ceilDiv_eq (L S : Nat) (hS : 0 < S) :
    (L + S - 1) / S = if L % S ≠ 0 then L / S + 1 else L / S := by
  have hdm : S * (L / S) + L % S = L := Nat.div_add_mod L S
  have hr : L % S < S := Nat.mod_lt L hS
  by_cases h0 : L % S = 0
  · have e : L + S - 1 = (S - 1) + S * (L / S) := by omega
    simp only [h0, ne_eq, not_true_eq_false, if_false]
    rw [e, Nat.add_mul_div_left _ _ hS, Nat.div_eq_of_lt (by omega), Nat.zero_add]
  · have e : L + S - 1 = (L % S - 1) + S * (L / S + 1) := by
      rw [Nat.mul_add, Nat.mul_one]; omega
    simp only [h0, ne_eq, not_false_eq_true, if_true]
    rw [e, Nat.add_mul_div_left _ _ hS, Nat.div_eq_of_lt (by omega), Nat.zero_add]

/-- The capacity that `createIndex` computes for `Chunks` is the rounded-up
quotient of the file size by the chunk size. -/
theorem estimatedChunks_eq (L S : Nat) (hS : 0 < S) :
    (if ((L : Int)).tmod (S : Int) ≠ 0 then ((L : Int)).tdiv (S : Int) + 1
      else ((L : Int)).tdiv (S : Int)) = (((L + S - 1) / S : Nat) : Int) := by
  have hm : ((L : Int)).tmod (S : Int) = ((L % S : Nat) : Int) := (Int.ofNat_tmod L S).symm
  have hd : ((L : Int)).tdiv (S : Int) = ((L / S : Nat) : Int) := (Int.ofNat_tdiv L S).symm
  rw [ceilDiv_eq L S hS, hd, hm]
  split_ifs with h1 h2 h2
  · rw [Nat.cast_add, Nat.cast_one]
  · exact absurd (by rw [not_not.mp h2]; rfl) h1
  · exact absurd (Nat.cast_eq_zero.mp (not_not.mp h1)) h2
  · rfl

/-- For a chunk size within the allocation limit the buffer is allocated and
the jobs are those of the read loop. -/
theorem dispatchJobs_eq (fuel S : Nat) (content : List Byte) (hmax : S ≤ maxAlloc) :
    dispatchJobs fuel (S : Int) content = (readLoop fuel S content 0).map Result.ok := by
  have h : ¬ ((S : Int) < 0 ∨ (maxAlloc : Int) < (S : Int)) := by omega
  simp only [dispatchJobs, h, if_false, Int.toNat_ofNat]

/-- For an existing file, a positive chunk size within the allocation limit, a
capacity of `Chunks` within that limit, reads that are not cut and enough fuel,
`createIndex` returns the aggregation of the scheduled results of the expected
jobs. -/
theorem createIndex_ok (simhash : List Byte → Nat) (sched : List ChunkInfo → List ChunkInfo)
    (fs : String → Option (List Byte)) (filePath : String) (content : List Byte)
    (S fuel : Nat) (hfs : fs filePath = some content) (hS : 0 < S)
    (hmax : S ≤ maxAlloc) (hread : S ≤ maxRW ∨ content.length ≤ maxRW)
    (hcap : chunkInfoSize * ((content.length + S - 1) / S) ≤ maxAlloc)
    (hfuel : (content.length + S - 1) / S < fuel) :
    createIndex simhash sched fuel fs filePath (S : Int) =
      some (.ok (aggregator (newIndex filePath (S : Int))
        (sched ((expectedJobs S content 0).map (worker simhash))))) := by
  have h0 : ((S : Int) = 0) = False := by
    simp only [eq_iff_iff, iff_false]; omega
  have h2 : ((((content.length + S - 1) / S : Nat) : Int) < 0 ∨
      (maxAlloc : Int) < (chunkInfoSize : Int) * (((content.length + S - 1) / S : Nat) : Int))
      = False := by
    simp only [eq_iff_iff, iff_false]
    have : ((chunkInfoSize * ((content.length + S - 1) / S) : Nat) : Int) ≤ (maxAlloc : Int) :=
      Int.ofNat_le.mpr hcap
    rw [Nat.cast_mul] at this
    rintro (h | h)
    · exact absurd h (not_lt.mpr (Int.ofNat_nonneg _))
    · exact absurd h (not_lt.mpr this)
  unfold createIndex
  simp only [hfs, h0, if_false, estimatedChunks_eq content.length S hS, h2,
    dispatchJobs_eq fuel S content hmax, readLoop_eq S hS fuel content 0 hread hfuel,
    Option.map_some']

/-- The worker results for `twoChunkFile` with chunk size 10, in dispatch order. -/
theorem twoChunk_results (simhash : List Byte → Nat) :
    (expectedJobs 10 twoChunkFile 0).map (worker simhash) =
      [⟨0, 10, simhash (List.replicate 10 97)⟩, ⟨10, 10, simhash (List.replicate 10 98)⟩] := by
  rfl

/-- Reading a map after a write. -/
theorem mapGet_mapSet (m : HashMap) (k : Nat) (v : List Int) (q : Nat) :
    mapGet (mapSet m k v) q = if k = q then v else mapGet m q := by
  induction m with
  | nil => simp [mapSet, mapGet]
  | cons e rest ih =>
    obtain ⟨k', v'⟩ := e
    by_cases h : k' = k
    · subst h
      by_cases h2 : k' = q <;> simp [mapSet, mapGet, h2]
    · simp only [mapSet, h, if_false, mapGet, ih]
      by_cases h2 : k' = q
      · have : ¬ k = q := fun hk => h (h2.trans hk.symm)
        simp [h2, this]
      · simp [h2]

/-- An entry of a map after a write is an old entry or the written one. -/
theorem mem_mapSet (m : HashMap) (k : Nat) (v : List Int) (e : Nat × List Int)
    (h : e ∈ mapSet m k v) : e ∈ m ∨ e = (k, v) := by
  induction m with
  | nil => simp [mapSet] at h; exact Or.inr h
  | cons e' rest ih =>
    obtain ⟨k', v'⟩ := e'
    by_cases hk : k' = k
    · simp only [mapSet, hk, if_true, List.mem_cons] at h
      rcases h with h | h
      · exact Or.inr h
      · exact Or.inl (List.mem_cons_of_mem _ h)
    · simp only [mapSet, hk, if_false, List.mem_cons] at h
      rcases h with h | h
      · exact Or.inl (h ▸ List.mem_cons_self _ _)
      · rcases ih h with h | h
        · exact Or.inl (List.mem_cons_of_mem _ h)
        · exact Or.inr h

/-- A non-empty read comes from an entry of the map. -/
theorem mapGet_mem (m : HashMap) (k : Nat) (j : Int) (h : j ∈ mapGet m k) :
    ∃ e ∈ m, e.1 = k ∧ j ∈ e.2 := by
  induction m with
  | nil => simp [mapGet] at h
  | cons e rest ih =>
    obtain ⟨k', v'⟩ := e
    by_cases hk : k' = k
    · simp only [mapGet, hk, if_true] at h
      exact ⟨(k', v'), List.mem_cons_self _ _, hk, h⟩
    · simp only [mapGet, hk, if_false] at h
      obtain ⟨e, he, h1, h2⟩ := ih h
      exact ⟨e, List.mem_cons_of_mem _ he, h1, h2⟩

/-- One aggregation step keeps the index invariant. -/
theorem aggregate_invariant (index : Index) (c : ChunkInfo) (h : IndexInvariant index) :
    IndexInvariant (aggregate index c) := by
  obtain ⟨hv, hm⟩ := h
  constructor
  · intro e he j hj
    simp only [aggregate, List.length_append, List.length_singleton] at he ⊢
    rcases mem_mapSet _ _ _ _ he with he | he
    · have := hv e he j hj
      push_cast; omega
    · subst he
      rcases List.mem_append.mp hj with hj | hj
      · obtain ⟨e, he, _, hje⟩ := mapGet_mem _ _ _ hj
        have := hv e he j hje
        push_cast; omega
      · simp only [List.mem_singleton] at hj
        push_cast; omega
  · intro i hi
    simp only [aggregate, List.length_append, List.length_singleton] at hi
    simp only [aggregate, mapGet_mapSet, List.get_eq_getElem]
    by_cases hlt : i < index.Chunks.length
    · rw [List.getElem_append_left hlt]
      have := hm i hlt
      simp only [List.get_eq_getElem] at this
      split_ifs with hk
      · rw [hk]; exact List.mem_append_left _ this
      · exact this
    · have hi' : i = index.Chunks.length := by omega
      subst hi'
      simp

/-- Any run of the aggregator keeps the index invariant. -/
theorem aggregator_invariant (rs : List ChunkInfo) : ∀ index : Index,
    IndexInvariant index → IndexInvariant (aggregator index rs) := by
  induction rs with
  | nil => intro index h; exact h
  | cons r rs ih =>
    intro index h
    exact ih _ (aggregate_invariant index r h)

/-- The freshly allocated index satisfies the invariant. -/
theorem newIndex_invariant (filePath : String) (chunkSize : Int) :
    IndexInvariant (newIndex filePath chunkSize) := by
  constructor
  · intro e he; simp [newIndex] at he
  · intro i hi; simp [newIndex] at hi

/-- A valid position can be read. -/
theorem chunkAt_isSome (chunks : List ChunkInfo) (j : Int) (h0 : 0 ≤ j)
    (h1 : j < (chunks.length : Int)) : ∃ c, chunkAt chunks j = some c := by
  have hlt : j.toNat < chunks.length := by omega
  refine ⟨chunks[j.toNat], ?_⟩
  have : ¬ j < 0 := by omega
  simp [chunkAt, this, List.getElem?_eq_getElem hlt]

/-- Over valid indices the append loop does not panic and appends the records at those indices, in order. -/
theorem appendChunks_ok (chunks : List ChunkInfo) : ∀ (idxs : List Int) (acc : List ChunkInfo),
    (∀ j ∈ idxs, 0 ≤ j ∧ j < (chunks.length : Int)) →
    ∃ rs, appendChunks chunks acc idxs = .ok (acc ++ rs) ∧
      rs.map some = idxs.map (chunkAt chunks) := by
  intro idxs
  induction idxs with
  | nil => intro acc _; exact ⟨[], by simp [appendChunks], rfl⟩
  | cons j rest ih =>
    intro acc hv
    obtain ⟨c, hc⟩ := chunkAt_isSome chunks j (hv j (List.mem_cons_self _ _)).1
      (hv j (List.mem_cons_self _ _)).2
    obtain ⟨rs, h1, h2⟩ := ih (acc ++ [c]) (fun i hi => hv i (List.mem_cons_of_mem _ hi))
    refine ⟨c :: rs, ?_, ?_⟩
    · simp only [appendChunks, hc, h1, List.append_assoc, List.singleton_append]
    · simp only [List.map_cons, hc, h2]

/-- Over buckets of valid indices the fuzzy scan does not panic and appends the records of every visited entry within the threshold, in visiting order. -/
theorem fuzzyScan_ok (chunks : List ChunkInfo) (q : Nat) : ∀ (visit : HashMap)
    (acc : List ChunkInfo), ValidBuckets chunks visit →
    ∃ rs, fuzzyScan chunks q acc visit = .ok (acc ++ rs) ∧
      rs.map some =
        (visit.filter (fun e => decide (HammingDistance q e.1 ≤ maxHammingDistance))).flatMap
          (fun e => e.2.map (chunkAt chunks)) := by
  intro visit
  induction visit with
  | nil => intro acc _; exact ⟨[], by simp [fuzzyScan], rfl⟩
  | cons e rest ih =>
    intro acc hv
    obtain ⟨hash, idxs⟩ := e
    have hrest : ValidBuckets chunks rest := fun e he => hv e (List.mem_cons_of_mem _ he)
    by_cases hd : HammingDistance q hash ≤ maxHammingDistance
    · obtain ⟨r1, h1, h2⟩ := appendChunks_ok chunks idxs acc (hv (hash, idxs) (List.mem_cons_self _ _))
      obtain ⟨r2, h3, h4⟩ := ih (acc ++ r1) hrest
      refine ⟨r1 ++ r2, ?_, ?_⟩
      · simp only [fuzzyScan, hd, if_true, h1, h3, List.append_assoc]
      · simp only [List.map_append, h2, h4, List.filter_cons, hd, decide_True, if_true,
          List.flatMap_cons]
    · obtain ⟨r2, h3, h4⟩ := ih acc hrest
      refine ⟨r2, ?_, ?_⟩
      · simp only [fuzzyScan, hd, if_false, h3]
      · simp only [h4, List.filter_cons, hd, decide_False]
        rfl

/-- In a map with distinct keys, reading the key of an entry gives the bucket of that entry. -/
theorem mapGet_of_mem (m : HashMap) (hn : DistinctKeys m) (e : Nat × List Int) (he : e ∈ m) :
    mapGet m e.1 = e.2 := by
  induction m with
  | nil => simp at he
  | cons e' rest ih =>
    obtain ⟨k', v'⟩ := e'
    simp only [DistinctKeys, mapKeys, List.map_cons, List.nodup_cons] at hn
    rcases List.mem_cons.mp he with h | h
    · subst h; simp [mapGet]
    · have hne : k' ≠ e.1 := by
        intro hk
        apply hn.1
        rw [hk]
        exact List.mem_map_of_mem Prod.fst h
      simp only [mapGet, hne, if_false]
      exact ih hn.2 h

/-- Collecting over the selected entries is collecting over the selected keys. -/
theorem flatMap_entries_eq_keys {β : Type} (m : HashMap) (hn : DistinctKeys m)
    (p : Nat → Bool) (f : List Int → List β) :
    (m.filter (fun e => p e.1)).flatMap (fun e => f e.2) =
      ((mapKeys m).filter p).flatMap (fun k => f (mapGet m k)) := by
  unfold mapKeys
  rw [List.filter_map, List.flatMap_map]
  apply List.flatMap_congr
  intro e he
  have hmem : e ∈ m := (List.mem_filter.mp he).1
  rw [mapGet_of_mem m hn e hmem]

/-- Every index of a bucket read from a valid map is a valid position. -/
theorem validBuckets_mapGet (chunks : List ChunkInfo) (m : HashMap) (hv : ValidBuckets chunks m)
    (k : Nat) : ∀ j ∈ mapGet m k, 0 ≤ j ∧ j < (chunks.length : Int) := by
  intro j hj
  obtain ⟨e, he, _, hje⟩ := mapGet_mem m k j hj
  exact hv e he j hje

/-- An index is rebuilt from its fields. -/
theorem indexOfFields_indexFields (index : Index) : indexOfFields (indexFields index) = index := by
  cases index with
  | mk fp cs chunks m =>
    simp only [indexOfFields, indexFields, List.map_map]
    congr 1
    · have : (Char.ofNat ∘ Char.toNat) = id := by
        funext c; simp [Function.comp]
      rw [this, List.map_id]
    · have : ((fun c : Int × Int × Nat => ({ Offset := c.1, Size := c.2.1, Hash := c.2.2 } : ChunkInfo)) ∘
          fun c : ChunkInfo => (c.Offset, c.Size, c.Hash)) = id := by
        funext c; rfl
      rw [this, List.map_id]

/-- The sample codec decodes what it encodes. -/
theorem sampleCodec_roundtrip (index : Index) :
    sampleCodec.decode (sampleCodec.encode index) = .ok index := by
  simp only [sampleCodec]
  rw [Encodable.encodek]
  simp only [indexOfFields_indexFields]

/-- The sample codec does not decode the empty stream. -/
theorem sampleCodec_decode_nil : sampleCodec.decode [] = .error "EOF" := rfl

/-- Loading a file whose bytes decode returns the decoded index. -/
theorem loadIndex_ok (codec : GobCodec) (w : World) (indexPath : String)
    (bytes : List Byte) (index : Index) (hfs : w.fs indexPath = some bytes)
    (hdec : codec.decode bytes = .ok index) :
    loadIndex codec w indexPath = (.ok index, w.log (.openRead indexPath)) := by
  simp only [loadIndex, World.log, hfs, hdec]

/-- The error of a failed open is not the error of a lookup without match. -/
theorem append_ne_notFound_opening (x : String) :
    "error opening index file: " ++ x ≠ notFoundError := by
  intro h
  have := congrArg (fun s => s.data.head?) h
  simp [notFoundError, String.data_append] at this

/-- The error of a failed decoding is not the error of a lookup without match. -/
theorem append_ne_notFound_decoding (x : String) :
    "error decoding index: " ++ x ≠ notFoundError := by
  intro h
  have := congrArg (fun s => s.data.head?) h
  simp [notFoundError, String.data_append] at this

/-- No error of `loadIndex` is the error of a lookup without match. -/
theorem loadIndex_err_ne_notFound (codec : GobCodec) (w : World) (indexPath : String)
    (e : String) (h : (loadIndex codec w indexPath).1 = .err e) : e ≠ notFoundError := by
  unfold loadIndex at h
  simp only [World.log] at h
  cases hfs : w.fs indexPath with
  | none =>
    rw [hfs] at h
    simp only [Result.err.injEq] at h
    rw [← h]
    exact append_ne_notFound_opening _
  | some bytes =>
    rw [hfs] at h
    cases hdec : codec.decode bytes with
    | error msg =>
      simp only [hdec, Result.err.injEq] at h
      rw [← h]
      exact append_ne_notFound_decoding _
    | ok index =>
      simp [hdec] at h

/-- For an existing file and a chunk size of zero or less `createIndex` panics,
whatever the fuel. -/
theorem createIndex_panics (simhash : List Byte → Nat) (sched : List ChunkInfo → List ChunkInfo)
    (fuel : Nat) (fs : String → Option (List Byte)) (filePath : String) (content : List Byte)
    (chunkSize : Int) (hfs : fs filePath = some content) (hsize : chunkSize ≤ 0) :
    ∃ msg, createIndex simhash sched fuel fs filePath chunkSize = some (.panic msg) := by
  unfold createIndex
  simp only [hfs]
  by_cases h0 : chunkSize = 0
  · refine ⟨"integer divide by zero", ?_⟩
    simp only [h0, if_true]
  · have hneg : chunkSize < 0 := by omega
    simp only [h0, if_false, dispatchJobs, hneg, true_or, if_true]
    split_ifs <;> exact ⟨_, rfl⟩

/-- An event changes no file. -/
theorem World.log_fs (w : World) (e : Event) : (w.log e).fs = w.fs := rfl

/-- A written file holds what was written. -/
theorem World.write_fs_self (w : World) (path : String) (data : List Byte) :
    (w.write path data).fs path = some data := by
  simp [World.write]

/-- A write leaves the other files as they were. -/
theorem World.write_fs_other (w : World) (path p : String) (data : List Byte)
    (h : w.fileOf p ≠ w.fileOf path) : (w.write path data).fs p = w.fs p := by
  simp [World.write, h]

/-- Writing the log leaves every file other than `hashlogs.txt` as it was. -/
theorem generateHashLogs_fs_other (w : World) (index : Index) (path : String)
    (h : w.fileOf path ≠ w.fileOf "hashlogs.txt") :
    (generateHashLogs w index).fs path = w.fs path := by
  unfold generateHashLogs
  simp only [World.fileOf] at h
  simp only [World.log, World.write, World.delete, World.fileOf]
  split_ifs <;> simp [h]

/-- On a path that can be created `saveIndex` writes the encoded index, then the
log. -/
theorem saveIndex_ok (codec : GobCodec) (w : World) (index : Index) (outputPath : String)
    (hcreate : w.creatable outputPath = true) :
    saveIndex codec w index outputPath =
      (.ok (), generateHashLogs ((w.log (.create outputPath)).write outputPath
        (codec.encode index)) index) := by
  simp [saveIndex, World.log, hcreate]

/-- The successful run of the CLI `indexCommand`, with the world it leaves. -/
theorem indexCommand_ok (simhash : List Byte → Nat) (sched : List ChunkInfo → List ChunkInfo)
    (fuel : Nat) (codec : GobCodec) (w : World) (inputFile outputFile : String)
    (content : List Byte) (S : Nat) (hinput : inputFile ≠ "") (hS : 0 < S)
    (hmax : S ≤ maxAlloc) (hread : S ≤ maxRW ∨ content.length ≤ maxRW)
    (hcap : chunkInfoSize * ((content.length + S - 1) / S) ≤ maxAlloc)
    (hfs : w.fs inputFile = some content) (hfuel : (content.length + S - 1) / S < fuel)
    (hcreate : w.creatable
      (if outputFile = "" then filepathBase inputFile ++ ".idx" else outputFile) = true) :
    indexCommand simhash sched fuel codec w inputFile (S : Int) outputFile =
      some (.ok (), (generateHashLogs
        ((((w.log (.stdout (stringBytes ("Indexing " ++ inputFile ++ " (chunk size: "
            ++ toString (S : Int) ++ " bytes)...\n")))).log (.openRead inputFile)).log
          (.create (if outputFile = "" then filepathBase inputFile ++ ".idx" else outputFile))).write
          (if outputFile = "" then filepathBase inputFile ++ ".idx" else outputFile)
          (codec.encode (builtIndex simhash sched inputFile content S)))
        (builtIndex simhash sched inputFile content S)).log
        (.stdout (stringBytes ("Indexed "
          ++ toString (builtIndex simhash sched inputFile content S).Chunks.length
          ++ " chunks, saved to "
          ++ (if outputFile = "" then filepathBase inputFile ++ ".idx" else outputFile)
          ++ "\n")))) := by
  have hv : validateChunkSize (S : Int) = none := by
    have : ¬ ((S : Int) ≤ 0) := by omega
    simp only [validateChunkSize, this, if_false]
  have hci : ∀ e, createIndexIn simhash sched fuel (w.log e) inputFile (S : Int) =
      some (.ok (builtIndex simhash sched inputFile content S),
        (w.log e).log (.openRead inputFile)) := by
    intro e
    have := createIndex_ok simhash sched (w.log e).fs inputFile content S fuel hfs hS hmax
      hread hcap hfuel
    simp only [createIndexIn, this, Option.map_some', builtIndex]
  have hc2 : ∀ e1 e2, ((w.log e1).log e2).creatable
      (if outputFile = "" then filepathBase inputFile ++ ".idx" else outputFile) = true :=
    fun _ _ => hcreate
  simp only [indexCommand, hinput, if_false, hv, hci, saveIndex_ok codec _ _ _ (hc2 _ _)]

/-- The selected positions after one more chunk. -/
theorem positionsWhere_append (chunks : List ChunkInfo) (c : ChunkInfo) (p : Nat → Bool) :
    positionsWhere (chunks ++ [c]) p =
      positionsWhere chunks p ++ (if p c.Hash then [(chunks.length : Int)] else []) := by
  unfold positionsWhere
  rw [List.length_append, List.length_singleton, List.range_succ, List.filter_append,
    List.map_append]
  congr 1
  · congr 1
    apply List.filter_congr
    intro i hi
    rw [List.getElem?_append_left (List.mem_range.mp hi)]
  · simp only [List.filter_cons, List.filter_nil, List.getElem?_concat_length]
    split_ifs <;> simp

/-- Membership in the selected positions. -/
theorem mem_positionsWhere (chunks : List ChunkInfo) (p : Nat → Bool) (j : Int) :
    j ∈ positionsWhere chunks p ↔
      ∃ (i : Nat) (c : ChunkInfo), j = (i : Int) ∧ chunks[i]? = some c ∧ p c.Hash = true := by
  unfold positionsWhere
  simp only [List.mem_map, List.mem_filter, List.mem_range]
  constructor
  · rintro ⟨i, ⟨hi, hp⟩, rfl⟩
    cases hc : chunks[i]? with
    | none => simp [hc] at hp
    | some c =>
      simp only [hc] at hp
      exact ⟨i, c, rfl, hc, hp⟩
  · rintro ⟨i, c, rfl, hc, hp⟩
    refine ⟨i, ⟨?_, ?_⟩, rfl⟩
    · by_contra hlt
      rw [List.getElem?_eq_none (by omega)] at hc
      simp at hc
    · simp only [hc, hp]

/-- The selected positions are pairwise distinct. -/
theorem positionsWhere_nodup (chunks : List ChunkInfo) (p : Nat → Bool) :
    (positionsWhere chunks p).Nodup := by
  unfold positionsWhere
  exact ((List.nodup_range _).filter _).map (fun a b h => Int.ofNat.inj h)

/-- Appending a chunk does not change the reads at the old positions. -/
theorem chunkAt_append_left (chunks : List ChunkInfo) (c : ChunkInfo) (i : Nat)
    (h : i < chunks.length) : chunkAt (chunks ++ [c]) (i : Int) = chunkAt chunks (i : Int) := by
  have : ¬ ((i : Int) < 0) := by omega
  simp only [chunkAt, this, if_false, Int.toNat_ofNat, List.getElem?_append_left h]

/-- The appended chunk is read at the old length. -/
theorem chunkAt_length (chunks : List ChunkInfo) (c : ChunkInfo) :
    chunkAt (chunks ++ [c]) (chunks.length : Int) = some c := by
  have : ¬ ((chunks.length : Int) < 0) := by omega
  simp only [chunkAt, this, if_false, Int.toNat_ofNat, List.getElem?_concat_length]

/-- Reading the chunks at the selected positions gives the selected chunks, in
order. -/
theorem positionsWhere_map_chunkAt (p : Nat → Bool) : ∀ chunks : List ChunkInfo,
    (positionsWhere chunks p).map (chunkAt chunks) =
      (chunks.filter (fun c => p c.Hash)).map some := by
  intro chunks
  induction chunks using List.reverseRecOn with
  | nil => rfl
  | append_singleton chunks c ih =>
    rw [positionsWhere_append, List.map_append, List.filter_append, List.map_append, ← ih]
    congr 1
    · apply List.map_congr_left
      intro j hj
      obtain ⟨i, d, rfl, hd, _⟩ := (mem_positionsWhere chunks p j).mp hj
      have hlt : i < chunks.length := by
        by_contra hlt
        rw [List.getElem?_eq_none (by omega)] at hd
        simp at hd
      exact chunkAt_append_left chunks c i hlt
    · by_cases hp : p c.Hash = true
      · simp [hp, chunkAt_length]
      · simp [hp]

/-- The keys of a map after a write. -/
theorem mapKeys_mapSet (m : HashMap) (k : Nat) (v : List Int) :
    mapKeys (mapSet m k v) = if k ∈ mapKeys m then mapKeys m else mapKeys m ++ [k] := by
  induction m with
  | nil => simp [mapSet, mapKeys]
  | cons e rest ih =>
    obtain ⟨k', v'⟩ := e
    unfold mapKeys at ih ⊢
    by_cases h : k' = k
    · subst h
      simp [mapSet]
    · have h' : ¬ k = k' := fun hk => h hk.symm
      simp only [mapSet, h, if_false, List.map_cons, ih, List.mem_cons, h', false_or]
      split_ifs <;> simp

/-- A write keeps the keys distinct. -/
theorem distinctKeys_mapSet (m : HashMap) (k : Nat) (v : List Int) (h : DistinctKeys m) :
    DistinctKeys (mapSet m k v) := by
  unfold DistinctKeys at h ⊢
  rw [mapKeys_mapSet]
  split_ifs with hk
  · exact h
  · exact List.Nodup.append h (List.nodup_singleton k) (by simpa using hk)

/-- One aggregation step keeps the buckets exact. -/
theorem aggregate_exactBuckets (index : Index) (c : ChunkInfo) (h : ExactBuckets index) :
    ExactBuckets (aggregate index c) := by
  obtain ⟨hd, hb⟩ := h
  refine ⟨distinctKeys_mapSet _ _ _ hd, ?_⟩
  intro k
  simp only [aggregate, mapGet_mapSet, positionsWhere_append, hb]
  by_cases hk : c.Hash = k
  · simp [hk]
  · simp [hk]

/-- Any run of the aggregator keeps the buckets exact. -/
theorem aggregator_exactBuckets (rs : List ChunkInfo) : ∀ index : Index,
    ExactBuckets index → ExactBuckets (aggregator index rs) := by
  induction rs with
  | nil => intro index h; exact h
  | cons r rs ih =>
    intro index h
    exact ih _ (aggregate_exactBuckets index r h)

/-- The freshly allocated index has exact buckets. -/
theorem newIndex_exactBuckets (filePath : String) (chunkSize : Int) :
    ExactBuckets (newIndex filePath chunkSize) := by
  refine ⟨List.nodup_nil, ?_⟩
  intro k
  rfl

/-- A key with a non-empty bucket is a key of the map. -/
theorem mapGet_ne_nil_mem_keys (m : HashMap) (k : Nat) (j : Int) (h : j ∈ mapGet m k) :
    k ∈ mapKeys m := by
  obtain ⟨e, he, hk, _⟩ := mapGet_mem m k j h
  rw [← hk]
  exact List.mem_map_of_mem Prod.fst he

/-- With exact buckets, the buckets of the keys selected by `p` hold, together,
each position of a chunk whose hash is selected by `p` exactly once. -/
theorem buckets_perm_positions (index : Index) (h : ExactBuckets index) (p : Nat → Bool) :
    (((mapKeys index.HashToChunks).filter p).flatMap (mapGet index.HashToChunks)).Perm
      (positionsWhere index.Chunks p) := by
  obtain ⟨hd, hb⟩ := h
  have hnd : (((mapKeys index.HashToChunks).filter p).flatMap
      (mapGet index.HashToChunks)).Nodup := by
    rw [List.nodup_flatMap]
    constructor
    · intro k _
      rw [hb]
      exact positionsWhere_nodup _ _
    · apply List.Nodup.pairwise_of_forall_ne (hd.filter _)
      intro a _ b _ hab
      simp only [Function.onFun, hb]
      intro j hja hjb
      obtain ⟨i, c, hji, hc, hpa⟩ := (mem_positionsWhere _ _ j).mp hja
      obtain ⟨i', c', hji', hc', hpb⟩ := (mem_positionsWhere _ _ j).mp hjb
      have hii : i = i' := by omega
      subst hii
      rw [hc] at hc'
      cases hc'
      simp only [decide_eq_true_eq] at hpa hpb
      exact hab (hpa.symm.trans hpb)
  rw [List.perm_ext_iff_of_nodup hnd (positionsWhere_nodup _ _)]
  intro j
  simp only [List.mem_flatMap, List.mem_filter]
  constructor
  · rintro ⟨k, ⟨_, hpk⟩, hj⟩
    rw [hb] at hj
    obtain ⟨i, c, hji, hc, hck⟩ := (mem_positionsWhere _ _ j).mp hj
    simp only [decide_eq_true_eq] at hck
    exact (mem_positionsWhere _ _ j).mpr ⟨i, c, hji, hc, by rw [hck]; exact hpk⟩
  · intro hj
    obtain ⟨i, c, hji, hc, hpc⟩ := (mem_positionsWhere _ _ j).mp hj
    have hjb : j ∈ mapGet index.HashToChunks c.Hash := by
      rw [hb]
      exact (mem_positionsWhere _ _ j).mpr ⟨i, c, hji, hc, by simp⟩
    exact ⟨c.Hash, ⟨mapGet_ne_nil_mem_keys _ _ _ hjb, hpc⟩, hjb⟩

/-- Exact buckets list valid positions only. -/
theorem exactBuckets_valid (index : Index) (h : ExactBuckets index) :
    ValidBuckets index.Chunks index.HashToChunks := by
  intro e he j hj
  have hget : mapGet index.HashToChunks e.1 = e.2 := mapGet_of_mem _ h.1 e he
  rw [← hget, h.2] at hj
  obtain ⟨i, c, hji, hc, _⟩ := (mem_positionsWhere _ _ j).mp hj
  have hlt : i < index.Chunks.length := by
    by_contra hlt
    rw [List.getElem?_eq_none (by omega)] at hc
    simp at hc
  omega

/-- Selecting every hash selects every position. -/
theorem positionsWhere_true (chunks : List ChunkInfo) :
    positionsWhere chunks (fun _ => true) = (List.range chunks.length).map Int.ofNat := by
  unfold positionsWhere
  congr 1
  rw [List.filter_eq_self]
  intro i hi
  rw [List.getElem?_eq_getElem (List.mem_range.mp hi)]

/-- For a missing index file `loadIndex` returns the error of the open. -/
theorem loadIndex_missing (codec : GobCodec) (w : World) (indexPath : String)
    (hfs : w.fs indexPath = none) :
    loadIndex codec w indexPath =
      (.err ("error opening index file: " ++ osError indexPath), w.log (.openRead indexPath)) := by
  simp only [loadIndex, World.log, hfs]

/-- For an index file whose bytes do not decode `loadIndex` returns the error
of the decoding. -/
theorem loadIndex_undecodable (codec : GobCodec) (w : World) (indexPath : String)
    (bytes : List Byte) (msg : String) (hfs : w.fs indexPath = some bytes)
    (hdec : codec.decode bytes = .error msg) :
    loadIndex codec w indexPath =
      (.err ("error decoding index: " ++ msg), w.log (.openRead indexPath)) := by
  simp only [loadIndex, World.log, hfs, hdec]

/-- C3, evaluated on the code: for the 20-byte file `twoChunkFile` and chunk size
10, when the result of the chunk at offset 10 reaches the aggregator before the
result of the chunk at offset 0, `createIndex` returns `Chunks` in that arrival
order: offsets 10, 0.  The sequence is not in ascending `Offset` order and
position 0 does not hold the chunk at offset 0. -/
theorem createIndex_chunks_out_of_order (simhash : List Byte → Nat) :
    ∃ index, createIndex simhash List.reverse 3 twoChunkFs "text.txt" 10 = some (.ok index) ∧
      index.Chunks = [⟨10, 10, simhash (List.replicate 10 98)⟩,
                      ⟨0, 10, simhash (List.replicate 10 97)⟩] ∧
      ¬ index.Chunks.Sorted (fun a b => a.Offset ≤ b.Offset) ∧
      (index.Chunks.get? 0).map ChunkInfo.Offset ≠ some (0 * 10) := by
  refine ⟨_, createIndex_ok simhash List.reverse twoChunkFs "text.txt" twoChunkFile 10 3 rfl
    (by decide) (by decide) (Or.inl (by decide)) (by decide) (by decide), ?_⟩
  rw [aggregator_chunks, twoChunk_results]
  refine ⟨rfl, ?_, ?_⟩
  · simp [newIndex, List.Sorted]
  · simp [newIndex]

/-- C4, evaluated on the code: two runs of `createIndex` on the same 20-byte
file with chunk size 10, one with the results arriving in dispatch order and
one with them arriving in reverse, return different `Chunks` sequences; when
the two chunks have different hashes, the bucket of the first chunk's hash is
`[0]` in one run and `[1]` in the other. -/
theorem createIndex_not_deterministic (simhash : List Byte → Nat) :
    ∃ index₁ index₂,
      createIndex simhash id 3 twoChunkFs "text.txt" 10 = some (.ok index₁) ∧
      createIndex simhash List.reverse 3 twoChunkFs "text.txt" 10 = some (.ok index₂) ∧
      index₁.Chunks ≠ index₂.Chunks ∧
      (simhash (List.replicate 10 97) ≠ simhash (List.replicate 10 98) →
        mapGet index₁.HashToChunks (simhash (List.replicate 10 97)) = [0] ∧
        mapGet index₂.HashToChunks (simhash (List.replicate 10 97)) = [1]) := by
  refine ⟨_, _, createIndex_ok simhash id twoChunkFs "text.txt" twoChunkFile 10 3 rfl
    (by decide) (by decide) (Or.inl (by decide)) (by decide) (by decide),
    createIndex_ok simhash List.reverse twoChunkFs "text.txt" twoChunkFile 10 3 rfl
    (by decide) (by decide) (Or.inl (by decide)) (by decide) (by decide), ?_, ?_⟩
  · rw [aggregator_chunks, aggregator_chunks, twoChunk_results]
    simp [newIndex]
  · intro hne
    rw [twoChunk_results]
    generalize simhash (List.replicate 10 97) = a at hne ⊢
    generalize simhash (List.replicate 10 98) = b at hne ⊢
    simp [aggregator, aggregate, newIndex, mapSet, mapGet, hne, Ne.symm hne]

/-- C5: for every sequence of results consumed by the aggregator, starting from
the index that `createIndex` allocates, the index invariant holds for the final
index and after every single aggregation step (that is, for every number `n` of
results consumed so far): each index listed in a bucket of `HashToChunks` is a
valid position into `Chunks`, and each position `i` is listed in the bucket of
`Chunks[i].Hash`. -/
theorem aggregator_keeps_invariant (filePath : String) (chunkSize : Int)
    (results : List ChunkInfo) :
    IndexInvariant (aggregator (newIndex filePath chunkSize) results) ∧
    ∀ n : Nat, IndexInvariant (aggregator (newIndex filePath chunkSize) (results.take n)) :=
  ⟨aggregator_invariant _ _ (newIndex_invariant filePath chunkSize),
   fun _ => aggregator_invariant _ _ (newIndex_invariant filePath chunkSize)⟩

/-- C6: for every index whose bucket indices are valid positions and every query
`F` whose bucket `HashToChunks[F]` is non-empty, `lookupQuery` returns, with a
nil error and whatever the order in which the map would be visited, exactly the
records `Chunks[i]` for the indices `i` of that bucket, in bucket order and
nothing else. -/
theorem lookupQuery_exact (index : Index) (F : Nat) (visit : HashMap)
    (hv : ValidBuckets index.Chunks index.HashToChunks)
    (hne : mapGet index.HashToChunks F ≠ []) :
    ∃ rs, lookupQuery index F visit = .ok rs ∧
      rs.map some = (mapGet index.HashToChunks F).map (chunkAt index.Chunks) ∧
      rs.length = (mapGet index.HashToChunks F).length := by
  obtain ⟨rs, h1, h2⟩ := appendChunks_ok index.Chunks (mapGet index.HashToChunks F) []
    (validBuckets_mapGet _ _ hv F)
  have hlen : rs.length = (mapGet index.HashToChunks F).length := by
    have := congrArg List.length h2
    simpa using this
  have hpos : rs.length ≠ 0 := by
    rw [hlen]
    exact fun h => hne (List.eq_nil_of_length_eq_zero h)
  refine ⟨rs, ?_, h2, hlen⟩
  simp only [List.nil_append] at h1
  simp only [lookupQuery, h1, hpos, if_false]

/-- Instance of C6: the key 101 is at Hamming distance 1 from the query 100, and
its chunk is not returned. -/
theorem lookupQuery_exact_witness :
    HammingDistance 100 101 ≤ 10 ∧
    ∃ rs, lookupQuery ⟨"text.txt", 10, [⟨0, 10, 100⟩, ⟨10, 10, 100⟩, ⟨20, 10, 101⟩],
        [(100, [0, 1]), (101, [2])]⟩ 100 [(101, [2]), (100, [0, 1])] = .ok rs ∧
      rs.map some = [some ⟨0, 10, 100⟩, some ⟨10, 10, 100⟩] := by
  obtain ⟨rs, h1, h2, _⟩ := lookupQuery_exact
    ⟨"text.txt", 10, [⟨0, 10, 100⟩, ⟨10, 10, 100⟩, ⟨20, 10, 101⟩], [(100, [0, 1]), (101, [2])]⟩
    100 [(101, [2]), (100, [0, 1])] (by decide) (by decide)
  exact ⟨by decide, rs, h1, h2.trans (by decide)⟩

/-- C7: for every index whose bucket indices are valid positions and whose map
has pairwise distinct keys (as every Go map has), and every query `q` whose
bucket is absent or empty, whatever the order `visit` in which `range` visits
the map, `lookupQuery` returns with a nil error a list that is, as a
multiset, the union over the keys `k` with `HammingDistance(q, k) ≤ 10` of the
records `Chunks[i]` for `i` in `HashToChunks[k]`; every returned record is
stored under a key within distance 10, so a chunk stored only under keys at
distance 11 or more is not returned. -/
theorem lookupQuery_fuzzy (index : Index) (q : Nat) (visit : HashMap)
    (hv : ValidBuckets index.Chunks index.HashToChunks)
    (hd : DistinctKeys index.HashToChunks)
    (hvisit : visit.Perm index.HashToChunks)
    (hq : mapGet index.HashToChunks q = []) :
    ∃ rs, lookupQuery index q visit = .ok rs ∧
      (rs.map some).Perm
        (((mapKeys index.HashToChunks).filter (fun k => decide (HammingDistance q k ≤ 10))).flatMap
          (fun k => (mapGet index.HashToChunks k).map (chunkAt index.Chunks))) ∧
      ∀ c ∈ rs, ∃ k ∈ mapKeys index.HashToChunks, HammingDistance q k ≤ 10 ∧
        ∃ i ∈ mapGet index.HashToChunks k, chunkAt index.Chunks i = some c := by
  have hvv : ValidBuckets index.Chunks visit := fun e he => hv e (hvisit.subset he)
  obtain ⟨rs, h1, h2⟩ := fuzzyScan_ok index.Chunks q visit [] hvv
  simp only [List.nil_append] at h1
  have hperm : (rs.map some).Perm
      (((mapKeys index.HashToChunks).filter (fun k => decide (HammingDistance q k ≤ 10))).flatMap
        (fun k => (mapGet index.HashToChunks k).map (chunkAt index.Chunks))) := by
    rw [h2, ← flatMap_entries_eq_keys index.HashToChunks hd
      (fun k => decide (HammingDistance q k ≤ 10)) (fun b => b.map (chunkAt index.Chunks))]
    exact List.Perm.flatMap_right _ (hvisit.filter _)
  refine ⟨rs, ?_, hperm, ?_⟩
  · simp [lookupQuery, hq, appendChunks, h1]
  · intro c hc
    have hmem : some c ∈ rs.map some := List.mem_map_of_mem some hc
    have := hperm.subset hmem
    obtain ⟨k, hk, hck⟩ := List.mem_flatMap.mp this
    obtain ⟨hk1, hk2⟩ := List.mem_filter.mp hk
    obtain ⟨i, hi, hci⟩ := List.mem_map.mp hck
    exact ⟨k, hk1, of_decide_eq_true hk2, i, hi, hci⟩

/-- Instance of C7: the key 110 is within distance 10 of the query 112, the key
`0xFFFFFF` is not, and the map is visited in the order opposite to the stored
one. -/
theorem lookupQuery_fuzzy_witness :
    HammingDistance 112 110 ≤ 10 ∧ 10 < HammingDistance 112 0xFFFFFF ∧
    ∃ rs, lookupQuery ⟨"text.txt", 10, [⟨0, 10, 110⟩, ⟨10, 10, 0xFFFFFF⟩, ⟨20, 10, 110⟩],
        [(110, [0, 2]), (0xFFFFFF, [1])]⟩ 112 [(0xFFFFFF, [1]), (110, [0, 2])] = .ok rs ∧
      (rs.map some).Perm [some ⟨0, 10, 110⟩, some ⟨20, 10, 110⟩] := by
  obtain ⟨rs, h1, h2, _⟩ := lookupQuery_fuzzy
    ⟨"text.txt", 10, [⟨0, 10, 110⟩, ⟨10, 10, 0xFFFFFF⟩, ⟨20, 10, 110⟩],
      [(110, [0, 2]), (0xFFFFFF, [1])]⟩ 112 [(0xFFFFFF, [1]), (110, [0, 2])]
    (by decide) (by decide) (List.Perm.swap _ _ _) (by decide)
  have e : ((mapKeys [(110, [0, 2]), (0xFFFFFF, [1])]).filter
      (fun k => decide (HammingDistance 112 k ≤ 10))).flatMap
      (fun k => (mapGet [(110, [0, 2]), (0xFFFFFF, [1])] k).map
        (chunkAt [⟨0, 10, 110⟩, ⟨10, 10, 0xFFFFFF⟩, ⟨20, 10, 110⟩]))
      = [some ⟨0, 10, 110⟩, some ⟨20, 10, 110⟩] := by decide
  exact ⟨by decide, by decide, rs, h1, e ▸ h2⟩

/-- C8: for every query, `lookupQuery` on an index with zero chunks and an empty
(or nil) `HashToChunks` returns the empty match list and a nil error. -/
theorem lookupQuery_empty_index (index : Index) (q : Nat) (visit : HashMap)
    (_hc : index.Chunks = []) (hm : index.HashToChunks = [])
    (hvisit : visit.Perm index.HashToChunks) :
    lookupQuery index q visit = .ok [] := by
  rw [hm] at hvisit
  have hvis : visit = [] := hvisit.eq_nil
  subst hvis
  simp [lookupQuery, hm, mapGet, appendChunks, fuzzyScan]

/-- Instance of C8: the empty index and the query 100. -/
theorem lookupQuery_empty_index_witness :
    lookupQuery ⟨"text.txt", 10, [], []⟩ 100 [] = .ok [] :=
  lookupQuery_empty_index ⟨"text.txt", 10, [], []⟩ 100 [] rfl rfl (List.Perm.refl _)

/-- C9: `HammingDistance` is symmetric, `HammingDistance(a, a) = 0`, and in
particular `HammingDistance(0, 0) = 0` and `HammingDistance(0, 0b1111) = 4`.
The values range over all natural numbers, of which the 64-bit values are a
part. -/
theorem hammingDistance_symm_refl :
    (∀ a b : Nat, HammingDistance a b = HammingDistance b a) ∧
    (∀ a : Nat, HammingDistance a a = 0) ∧
    HammingDistance 0 0 = 0 ∧ HammingDistance 0 0b1111 = 4 := by
  refine ⟨?_, ?_, by decide, by decide⟩
  · intro a b
    unfold HammingDistance
    rw [Nat.xor_comm]
  · intro a
    unfold HammingDistance
    rw [Nat.xor_self]
    decide

/-- C10: `HammingDistance(a, b)` is the number of bit positions `i` in `0..63` at
which bit `i` of `a` differs from bit `i` of `b`, and lies between 0 and 64. -/
theorem hammingDistance_counts_differing_bits (a b : Nat) :
    HammingDistance a b
      = (Finset.filter (fun i => a.testBit i ≠ b.testBit i) (Finset.range 64)).card ∧
    0 ≤ HammingDistance a b ∧ HammingDistance a b ≤ 64 := by
  refine ⟨?_, Nat.zero_le _, onesCount_le 64 _⟩
  unfold HammingDistance OnesCount64
  rw [onesCount_eq_filter, ← list_filter_length_eq_card]
  congr 1
  apply List.filter_congr
  intro i _
  rw [Nat.testBit_xor]
  cases a.testBit i <;> cases b.testBit i <;> rfl

/-- C11, evaluated on the code: with the uploaded file present and a chunk size
of 0 (the length of an empty search text), the web `indexCommand` opens the
source and then panics with an integer division by zero instead of returning
an invalid-parameter error; `createIndex` does so too, panics in an allocation
for the chunk size -3, and for a missing source returns the error of the open,
which it attempts before any look at the chunk size. -/
theorem web_indexCommand_panics (simhash : List Byte → Nat)
    (sched : List ChunkInfo → List ChunkInfo) (fuel : Nat) (codec : GobCodec) :
    Web.indexCommand simhash sched fuel codec uploadWorld
        "./cmd/web/uploads/uploaded_text.txt" 0 "./cmd/web/uploads/uploaded_text.idx" =
      some (.panic "integer divide by zero",
        uploadWorld.log (.openRead "./cmd/web/uploads/uploaded_text.txt")) ∧
    createIndex simhash sched fuel uploadWorld.fs "./cmd/web/uploads/uploaded_text.txt" 0 =
      some (.panic "integer divide by zero") ∧
    createIndex simhash sched fuel uploadWorld.fs "./cmd/web/uploads/uploaded_text.txt" (-3) =
      some (.panic "makeslice: len out of range") ∧
    createIndex simhash sched fuel uploadWorld.fs "missing.txt" 0 =
      some (.err "open missing.txt: no such file or directory. Check the file path and try again") := by
  refine ⟨?_, ?_, ?_, ?_⟩
  · simp [Web.indexCommand, createIndexIn, createIndex, uploadWorld]
  · simp [createIndex, uploadWorld]
  · have hcap : ¬ ((if Int.tmod 2 (-3) ≠ 0 then Int.tdiv 2 (-3) + 1 else Int.tdiv 2 (-3)) < 0 ∨
        (maxAlloc : Int) < (chunkInfoSize : Int) *
          (if Int.tmod 2 (-3) ≠ 0 then Int.tdiv 2 (-3) + 1 else Int.tdiv 2 (-3))) := by decide
    have hfs : uploadWorld.fs "./cmd/web/uploads/uploaded_text.txt" = some [104, 105] := rfl
    have h0 : ¬ ((-3 : Int) = 0) := by decide
    have hlen : (([104, 105] : List Byte).length : Int) = 2 := rfl
    simp only [createIndex, hfs, h0, if_false, hlen, hcap, dispatchJobs]
    rfl
  · have hfs : uploadWorld.fs "missing.txt" = none := rfl
    simp only [createIndex, hfs]
    decide

/-- C12: `validateChunkSize` returns an error exactly for the sizes that are zero
or less; and the CLI `indexCommand`, given a non-empty input path and such a
size, returns that error and leaves the world unchanged: no file is opened or
created and nothing is printed, so neither `createIndex` nor `saveIndex` ran
(the result does not depend on the fuel, the file system or the scheduler). -/
theorem indexCommand_rejects_chunkSize (simhash : List Byte → Nat)
    (sched : List ChunkInfo → List ChunkInfo) (fuel : Nat) (codec : GobCodec) (w : World)
    (inputFile : String) (size : Int) (outputFile : String)
    (hinput : inputFile ≠ "") (hsize : size ≤ 0) :
    (∀ n : Int, (validateChunkSize n ≠ none) ↔ n ≤ 0) ∧
    ∃ e, validateChunkSize size = some e ∧
      indexCommand simhash sched fuel codec w inputFile size outputFile = some (.err e, w) := by
  constructor
  · intro n
    unfold validateChunkSize
    split_ifs with h <;> simp [h]
  · refine ⟨"invalid chunk size: " ++ toString size ++ ". Provide a valid chunk size (e.g.1024)",
      by simp only [validateChunkSize, hsize, if_true], ?_⟩
    simp only [indexCommand, hinput, if_false, validateChunkSize, hsize, if_true]

/-- Instance of C12: the size -512 of the tests. -/
theorem indexCommand_rejects_chunkSize_witness :
    indexCommand (fun _ => 7) id 0 sampleCodec emptyWorld "text.txt" (-512) "" =
      some (.err "invalid chunk size: -512. Provide a valid chunk size (e.g.1024)", emptyWorld) := by
  obtain ⟨_, e, h1, h2⟩ := indexCommand_rejects_chunkSize (fun _ => 7) id 0 sampleCodec emptyWorld
    "text.txt" (-512) "" (by decide) (by decide)
  have he : e = "invalid chunk size: -512. Provide a valid chunk size (e.g.1024)" :=
    (Option.some.inj h1).symm.trans (by decide)
  rw [h2, he]

/-- C13: called with a zero query hash or with an empty index path,
`lookupCommand` and `lookupCommandWeb` return a non-nil error and leave the
world unchanged: no file is opened, so the index is not loaded, `lookupQuery`
is not run and no chunk content is read. -/
theorem lookupCommand_rejects_before_loading (codec : GobCodec) (order : HashMap → HashMap)
    (w : World) (indexFile : String) (queryHash : Nat)
    (h : queryHash = 0 ∨ indexFile = "") :
    lookupCommand codec order w indexFile queryHash =
      (.err (if indexFile = "" then "error: index file is required"
        else "error: simhash value is required"), w) ∧
    lookupCommandWeb codec order w indexFile queryHash =
      (.err (if indexFile = "" then "error: index file is required"
        else "error: simhash value is required"), w) := by
  by_cases hf : indexFile = ""
  · simp only [lookupCommand, lookupCommandWeb, hf, if_true, and_self]
  · have hq : queryHash = 0 := h.resolve_right hf
    simp only [lookupCommand, lookupCommandWeb, hf, if_false, hq, if_true, and_self]

/-- Instance of C13: the zero query of the tests, and an empty index path. -/
theorem lookupCommand_rejects_before_loading_witness :
    lookupCommand sampleCodec id emptyWorld "testdata/valid_index.gob" 0 =
      (.err "error: simhash value is required", emptyWorld) ∧
    lookupCommandWeb sampleCodec id emptyWorld "" 123 =
      (.err "error: index file is required", emptyWorld) :=
  ⟨(lookupCommand_rejects_before_loading sampleCodec id emptyWorld
      "testdata/valid_index.gob" 0 (Or.inl rfl)).1,
   (lookupCommand_rejects_before_loading sampleCodec id emptyWorld "" 123 (Or.inr rfl)).2⟩

/-- C14: when the index loads and `lookupQuery` returns no chunk for a non-zero
query, `lookupCommand` returns the error `SimHash not found. ...`; the error
for a zero query is a different one; when the index file is missing,
`lookupCommand` returns the error of the open, and when its bytes do not decode,
the error of the decoding, and both are different from that error too. -/
theorem lookupCommand_not_found (codec : GobCodec) (order : HashMap → HashMap) (w w1 : World)
    (indexFile : String) (queryHash : Nat) (index : Index)
    (hfile : indexFile ≠ "") (hquery : queryHash ≠ 0)
    (hload : loadIndex codec w indexFile = (.ok index, w1))
    (hnone : lookupQuery index queryHash (order index.HashToChunks) = .ok []) :
    (lookupCommand codec order w indexFile queryHash).1 =
      .err "SimHash not found. Ensure the file was indexed before looking up" ∧
    (∀ (w2 : World) (path : String), (lookupCommand codec order w2 path 0).1 ≠
      .err "SimHash not found. Ensure the file was indexed before looking up") ∧
    (∀ (w2 : World) (path : String) (q : Nat), path ≠ "" → q ≠ 0 → w2.fs path = none →
      (lookupCommand codec order w2 path q).1 =
        .err ("error opening index file: " ++ osError path) ∧
      "error opening index file: " ++ osError path ≠
        "SimHash not found. Ensure the file was indexed before looking up") ∧
    (∀ (w2 : World) (path : String) (q : Nat) (bytes : List Byte) (msg : String),
      path ≠ "" → q ≠ 0 → w2.fs path = some bytes → codec.decode bytes = .error msg →
      (lookupCommand codec order w2 path q).1 = .err ("error decoding index: " ++ msg) ∧
      "error decoding index: " ++ msg ≠
        "SimHash not found. Ensure the file was indexed before looking up") := by
  refine ⟨?_, ?_, ?_, ?_⟩
  · simp [lookupCommand, hfile, hquery, hload, hnone]
  · intro w2 path
    by_cases hp : path = ""
    · simp only [lookupCommand, hp, if_true]
      decide
    · simp only [lookupCommand, hp, if_false, if_true]
      decide
  · intro w2 path q hp hq hfs
    refine ⟨?_, append_ne_notFound_opening _⟩
    simp only [lookupCommand, hp, hq, if_false, loadIndex_missing codec w2 path hfs]
  · intro w2 path q bytes msg hp hq hfs hdec
    refine ⟨?_, append_ne_notFound_decoding _⟩
    simp only [lookupCommand, hp, hq, if_false,
      loadIndex_undecodable codec w2 path bytes msg hfs hdec]

/-- Instance of C14: the index of the tests and a query at Hamming distance 18
from its only key; a missing index file; an index file without bytes. -/
theorem lookupCommand_not_found_witness :
    10 < HammingDistance 0xFFFFFF 123 ∧
    (lookupCommand sampleCodec id validWorld "testdata/valid_index.gob" 0xFFFFFF).1 =
      .err "SimHash not found. Ensure the file was indexed before looking up" ∧
    (lookupCommand sampleCodec id emptyWorld "testdata/missing.gob" 123).1 =
      .err "error opening index file: open testdata/missing.gob: no such file or directory" ∧
    (lookupCommand sampleCodec id emptyFileWorld "empty.gob" 123).1 =
      .err "error decoding index: EOF" := by
  obtain ⟨h1, _, h3, h4⟩ := lookupCommand_not_found sampleCodec id validWorld
    (validWorld.log (.openRead "testdata/valid_index.gob")) "testdata/valid_index.gob" 0xFFFFFF
    validIndex (by decide) (by decide)
    (loadIndex_ok sampleCodec validWorld "testdata/valid_index.gob"
      (sampleCodec.encode validIndex) validIndex (by simp [validWorld])
      (sampleCodec_roundtrip validIndex))
    (by decide)
  refine ⟨by decide, h1, ?_, ?_⟩
  · exact (h3 emptyWorld "testdata/missing.gob" 123 (by decide) (by decide) rfl).1.trans
      (by decide)
  · exact (h4 emptyFileWorld "empty.gob" 123 [] "EOF" (by decide) (by decide) rfl
      sampleCodec_decode_nil).1.trans (by decide)

/-- C16 fails as stated: the encoding of `badIndex`, whose bucket lists the
position 3 although there is one chunk, loads with no error; `lookupCommand`
hands it to `lookupQuery`, which panics on the index out of range. -/
theorem loadIndex_accepts_invalid_index :
    (loadIndex sampleCodec corruptWorld "bad.idx").1 = .ok badIndex ∧
    ¬ IndexInvariant badIndex ∧
    (lookupCommand sampleCodec id corruptWorld "bad.idx" 5).1 = .panic "index out of range" := by
  have hload : loadIndex sampleCodec corruptWorld "bad.idx" =
      (.ok badIndex, corruptWorld.log (.openRead "bad.idx")) :=
    loadIndex_ok sampleCodec corruptWorld "bad.idx" (sampleCodec.encode badIndex) badIndex
      (by simp [corruptWorld]) (sampleCodec_roundtrip badIndex)
  refine ⟨by rw [hload], by decide, ?_⟩
  simp only [lookupCommand, hload]
  decide

/-- C16, as amended: `loadIndex` returns the index that the bytes of the file
decode to, with no error, whether or not that index satisfies the index
invariant; and it returns an error only when the file does not exist or its
bytes do not decode. -/
theorem loadIndex_returns_decoded (codec : GobCodec) (w : World) (indexPath : String)
    (bytes : List Byte) (index : Index) (hfs : w.fs indexPath = some bytes)
    (hdec : codec.decode bytes = .ok index) :
    loadIndex codec w indexPath = (.ok index, w.log (.openRead indexPath)) ∧
    (∀ (w2 : World) (path : String) (e : String), (loadIndex codec w2 path).1 = .err e →
      w2.fs path = none ∨ ∃ b msg, w2.fs path = some b ∧ codec.decode b = .error msg) := by
  constructor
  · exact loadIndex_ok codec w indexPath bytes index hfs hdec
  · intro w2 path e h
    cases hfs2 : w2.fs path with
    | none => exact Or.inl rfl
    | some b =>
      right
      cases hd : codec.decode b with
      | error msg => exact ⟨b, msg, rfl, hd⟩
      | ok i => simp [loadIndex, World.log, hfs2, hd] at h

/-- Instance of C16 as amended: the file that holds the encoding of `badIndex`. -/
theorem loadIndex_returns_decoded_witness :
    (loadIndex sampleCodec corruptWorld "bad.idx").1 = .ok badIndex :=
  congrArg Prod.fst (loadIndex_returns_decoded sampleCodec corruptWorld "bad.idx"
    (sampleCodec.encode badIndex) badIndex (by simp [corruptWorld])
    (sampleCodec_roundtrip badIndex)).1

/-- C18, evaluated on the code: for an index of ten chunks `generateHashLogs`
selects no chunk and writes an empty log, and for an index of eleven chunks it
writes the first nine lines, not ten; for two chunks it writes both lines. -/
theorem generateHashLogs_off_by_one :
    firstTenHashes (sampleChunks 10) = [] ∧
    (generateHashLogs emptyWorld ⟨"text.txt", 10, sampleChunks 10, []⟩).fs "hashlogs.txt"
      = some [] ∧
    firstTenHashes (sampleChunks 11) = (sampleChunks 11).take 9 ∧
    (generateHashLogs emptyWorld ⟨"text.txt", 10, sampleChunks 11, []⟩).fs "hashlogs.txt"
      = some (stringBytes "0=>0\n1=>10\n2=>20\n3=>30\n4=>40\n5=>50\n6=>60\n7=>70\n8=>80\n") ∧
    (generateHashLogs emptyWorld ⟨"text.txt", 10, sampleChunks 2, []⟩).fs "hashlogs.txt"
      = some (stringBytes "0=>0\n1=>10\n") := by
  refine ⟨by decide, by decide, by decide, by decide, by decide⟩

/-- C19, evaluated on the code: for the input `text.txt` and an empty output
name, the CLI `indexCommand` saves the index as `text.txt.idx`; no file
`text.idx` is created. -/
theorem indexCommand_default_output_name (simhash : List Byte → Nat)
    (sched : List ChunkInfo → List ChunkInfo) (codec : GobCodec) :
    filepathBase "text.txt" ++ ".idx" = "text.txt.idx" ∧
    ∃ w, indexCommand simhash sched 5 codec textWorld "text.txt" 10 "" = some (.ok (), w) ∧
      w.fs "text.txt.idx" =
        some (codec.encode (builtIndex simhash sched "text.txt" (List.replicate 35 97) 10)) ∧
      w.fs "text.idx" = none ∧
      Event.create "text.txt.idx" ∈ w.trace ∧ Event.create "text.idx" ∉ w.trace := by
  have hbase : filepathBase "text.txt" ++ ".idx" = "text.txt.idx" := by decide
  have h1 : cleanPath "hashlogs.txt" = "hashlogs.txt" := by decide
  have h2 : cleanPath "text.txt.idx" = "text.txt.idx" := by decide
  refine ⟨hbase, _, indexCommand_ok simhash sched 5 codec textWorld "text.txt" ""
    (List.replicate 35 97) 10 (by decide) (by decide) (by decide) (Or.inl (by decide))
    (by decide) (by simp [textWorld]) (by decide) rfl,
    ?_, ?_, ?_, ?_⟩
  · simp only [hbase, if_true]
    rw [World.log_fs, generateHashLogs_fs_other, World.write_fs_self]
    exact (show cleanPath "text.txt.idx" ≠ cleanPath "hashlogs.txt" by decide)
  · simp only [hbase, if_true]
    rw [World.log_fs, generateHashLogs_fs_other, World.write_fs_other]
    · rfl
    · exact (show cleanPath "text.idx" ≠ cleanPath "text.txt.idx" by decide)
    · exact (show cleanPath "text.idx" ≠ cleanPath "hashlogs.txt" by decide)
  · simp [hbase, World.log, generateHashLogs, World.write, World.delete, World.fileOf,
      textWorld, h1, h2]
  · simp [hbase, World.log, generateHashLogs, World.write, World.delete, World.fileOf,
      textWorld, h1, h2]

/-- C20: for the index that the aggregator builds from any sequence of results,
the keys of `HashToChunks` are distinct, the buckets together list every
position `0..len(Chunks)-1` exactly once and nothing else, and a position listed
under a key is that of a chunk with that hash; so, for every query `q` and every
order `visit` in which `range` visits the map, `lookupQuery` returns exactly
the chunks with `Hash = q`, in order, when there is one, and otherwise a
permutation of the chunks `c` with `HammingDistance(q, c.Hash) ≤ 10`. -/
theorem aggregator_buckets_partition (filePath : String) (chunkSize : Int)
    (results : List ChunkInfo) (index : Index) (q : Nat) (visit : HashMap)
    (hindex : index = aggregator (newIndex filePath chunkSize) results)
    (hvisit : visit.Perm index.HashToChunks) :
    DistinctKeys index.HashToChunks ∧
    (index.HashToChunks.flatMap Prod.snd).Perm
      ((List.range index.Chunks.length).map Int.ofNat) ∧
    (∀ e ∈ index.HashToChunks, ∀ j ∈ e.2,
      ∃ c, chunkAt index.Chunks j = some c ∧ c.Hash = e.1) ∧
    ((∃ c ∈ index.Chunks, c.Hash = q) →
      lookupQuery index q visit = .ok (index.Chunks.filter (fun c => decide (c.Hash = q)))) ∧
    ((¬ ∃ c ∈ index.Chunks, c.Hash = q) →
      ∃ rs, lookupQuery index q visit = .ok rs ∧
        rs.Perm (index.Chunks.filter (fun c => decide (HammingDistance q c.Hash ≤ 10)))) := by
  have hex : ExactBuckets index := by
    rw [hindex]
    exact aggregator_exactBuckets _ _ (newIndex_exactBuckets filePath chunkSize)
  have hv : ValidBuckets index.Chunks index.HashToChunks := exactBuckets_valid index hex
  refine ⟨hex.1, ?_, ?_, ?_, ?_⟩
  · have h1 := buckets_perm_positions index hex (fun _ => true)
    rw [positionsWhere_true, ← flatMap_entries_eq_keys index.HashToChunks hex.1
      (fun _ => true) (fun b => b)] at h1
    simpa using h1
  · intro e he j hj
    have hget : mapGet index.HashToChunks e.1 = e.2 := mapGet_of_mem _ hex.1 e he
    rw [← hget, hex.2] at hj
    obtain ⟨i, c, hji, hc, hck⟩ := (mem_positionsWhere _ _ j).mp hj
    refine ⟨c, ?_, by simpa using hck⟩
    subst hji
    have : ¬ ((i : Int) < 0) := by omega
    simp only [chunkAt, this, if_false, Int.toNat_ofNat, hc]
  · rintro ⟨c, hc, hcq⟩
    obtain ⟨rs, h1, h2⟩ := appendChunks_ok index.Chunks (mapGet index.HashToChunks q) []
      (validBuckets_mapGet _ _ hv q)
    rw [hex.2, positionsWhere_map_chunkAt] at h2
    have hrs : rs = index.Chunks.filter (fun c => decide (c.Hash = q)) :=
      List.map_injective_iff.mpr (Option.some_injective _) h2
    have hne : rs.length ≠ 0 := by
      rw [hrs]
      intro h0
      have hmem : c ∈ index.Chunks.filter (fun c => decide (c.Hash = q)) :=
        List.mem_filter.mpr ⟨hc, by simpa using hcq⟩
      rw [List.eq_nil_of_length_eq_zero h0] at hmem
      simp at hmem
    simp only [List.nil_append] at h1
    rw [← hrs]
    simp only [lookupQuery, h1, hne, if_false]
  · intro hno
    have hq : mapGet index.HashToChunks q = [] := by
      rw [hex.2]
      apply List.eq_nil_iff_forall_not_mem.mpr
      intro j hj
      obtain ⟨i, c, _, hc, hck⟩ := (mem_positionsWhere _ _ j).mp hj
      exact hno ⟨c, List.mem_iff_getElem?.mpr ⟨i, hc⟩, by simpa using hck⟩
    have hvv : ValidBuckets index.Chunks visit := fun e he => hv e (hvisit.subset he)
    obtain ⟨rs, h1, h2⟩ := fuzzyScan_ok index.Chunks q visit [] hvv
    simp only [List.nil_append] at h1
    refine ⟨rs, by simp [lookupQuery, hq, appendChunks, h1], ?_⟩
    have hperm : (rs.map some).Perm ((index.Chunks.filter
        (fun c => decide (HammingDistance q c.Hash ≤ 10))).map some) := by
      rw [h2, ← positionsWhere_map_chunkAt (fun h => decide (HammingDistance q h ≤ 10))]
      have h3 : ((visit.filter (fun e => decide (HammingDistance q e.1 ≤ maxHammingDistance))).flatMap
          (fun e => e.2.map (chunkAt index.Chunks))).Perm
          ((index.HashToChunks.filter
            (fun e => decide (HammingDistance q e.1 ≤ maxHammingDistance))).flatMap
          (fun e => e.2.map (chunkAt index.Chunks))) :=
        List.Perm.flatMap_right _ (hvisit.filter _)
      refine h3.trans ?_
      rw [flatMap_entries_eq_keys index.HashToChunks hex.1
        (fun k => decide (HammingDistance q k ≤ maxHammingDistance))
        (fun b => b.map (chunkAt index.Chunks)), ← List.map_flatMap]
      exact (buckets_perm_positions index hex _).map _
    have := hperm.filterMap id
    simpa using this

/-- Instance of C20: three results, two of them with hash 7; the query 7 matches
exactly, the query 9 matches none exactly and all three within the threshold. -/
theorem aggregator_buckets_partition_witness :
    lookupQuery (aggregator (newIndex "text.txt" 10) [⟨0, 10, 7⟩, ⟨10, 10, 8⟩, ⟨20, 10, 7⟩]) 7
        [(8, [1]), (7, [0, 2])] = .ok [⟨0, 10, 7⟩, ⟨20, 10, 7⟩] ∧
    ∃ rs, lookupQuery (aggregator (newIndex "text.txt" 10) [⟨0, 10, 7⟩, ⟨10, 10, 8⟩, ⟨20, 10, 7⟩])
        9 [(8, [1]), (7, [0, 2])] = .ok rs ∧
      rs.Perm [⟨0, 10, 7⟩, ⟨10, 10, 8⟩, ⟨20, 10, 7⟩] := by
  obtain ⟨_, _, _, h4, _⟩ := aggregator_buckets_partition "text.txt" 10
    [⟨0, 10, 7⟩, ⟨10, 10, 8⟩, ⟨20, 10, 7⟩] _ 7 [(8, [1]), (7, [0, 2])] rfl
    (List.Perm.swap _ _ _)
  obtain ⟨_, _, _, _, h5⟩ := aggregator_buckets_partition "text.txt" 10
    [⟨0, 10, 7⟩, ⟨10, 10, 8⟩, ⟨20, 10, 7⟩] _ 9 [(8, [1]), (7, [0, 2])] rfl
    (List.Perm.swap _ _ _)
  exact ⟨h4 ⟨⟨0, 10, 7⟩, by decide, rfl⟩, h5 (by decide)⟩

/-- C21: for every index in which every index listed in a bucket of
`HashToChunks` is a valid position into `Chunks`, for every query and every
order `visit` in which `range` visits the map, each read `Chunks[chunkIdx]` of
the first loop and of the second loop of `lookupQuery` is in range, so that
`lookupQuery` returns and does not panic; and for the index `badIndex`, whose
bucket lists the position 3 although there is one chunk, the read `Chunks[3]`
is out of range: `lookupQuery` panics in its first loop for the query 5 and in
its second loop for the query 4. -/
theorem lookupQuery_reads_in_range (index : Index) (q : Nat) (visit : HashMap)
    (hv : ValidBuckets index.Chunks index.HashToChunks)
    (hvisit : visit.Perm index.HashToChunks) :
    (∃ rs, lookupQuery index q visit = .ok rs) ∧
    (∀ j ∈ mapGet index.HashToChunks q, ∃ c, chunkAt index.Chunks j = some c) ∧
    (∀ e ∈ visit, ∀ j ∈ e.2, ∃ c, chunkAt index.Chunks j = some c) ∧
    (¬ ValidBuckets badIndex.Chunks badIndex.HashToChunks ∧
      chunkAt badIndex.Chunks 3 = none ∧
      lookupQuery badIndex 5 badIndex.HashToChunks = .panic "index out of range" ∧
      mapGet badIndex.HashToChunks 4 = [] ∧
      lookupQuery badIndex 4 badIndex.HashToChunks = .panic "index out of range") := by
  have hvv : ValidBuckets index.Chunks visit := fun e he => hv e (hvisit.subset he)
  refine ⟨?_, ?_, ?_, by decide, by decide, by decide, by decide, by decide⟩
  · obtain ⟨rs, h1, _⟩ := appendChunks_ok index.Chunks (mapGet index.HashToChunks q) []
      (validBuckets_mapGet _ _ hv q)
    simp only [List.nil_append] at h1
    by_cases h0 : rs.length = 0
    · obtain ⟨rs2, h2, _⟩ := fuzzyScan_ok index.Chunks q visit rs hvv
      exact ⟨rs ++ rs2, by simp only [lookupQuery, h1, h0, if_true, h2]⟩
    · exact ⟨rs, by simp only [lookupQuery, h1, h0, if_false]⟩
  · intro j hj
    have := validBuckets_mapGet _ _ hv q j hj
    exact chunkAt_isSome index.Chunks j this.1 this.2
  · intro e he j hj
    have := hvv e he j hj
    exact chunkAt_isSome index.Chunks j this.1 this.2

/-- Instance of C21: the index of the tests, whose bucket lists the positions 0
and 1 of its two chunks, with the query 123. -/
theorem lookupQuery_reads_in_range_witness :
    ∃ rs, lookupQuery validIndex 123 validIndex.HashToChunks = .ok rs :=
  (lookupQuery_reads_in_range validIndex 123 validIndex.HashToChunks (by decide)
    (List.Perm.refl _)).1

end Blitz
